import Mathlib

/-!
# Verification of the changelog merge/versioning engine

Shallow embedding of the core of `src/changelog.cc`, `version.cc`
(`src/unnamed/part_001`) and the supporting headers.  `std::string` is
modelled as `List Char` (a byte string; all relevant characters are ASCII or
the em dash, where the byte-level and character-level views agree),
`std::set<std::string>` as a sorted duplicate-free `List`, and the
`std::map<CommitType, std::set<std::string>>` of section entries as a
function `CommitType → List (List Char)` iterated in declaration order
(a `std::map` iterates its keys in `CommitType` order and the renderer
skips empty sets, so the two views render identically).
-/

/-- Model of `std::string`: a sequence of characters. -/
abbrev Str : Type := List Char

/-- `enum class CommitType` from `changelog.h`, in declaration order. -/
inductive CommitType where
  | kAdd
  | kFeat
  | kRefactor
  | kDeprecated
  | kFix
  | kDocs
  | kTest
  | kPerf
  deriving DecidableEq, Repr

/-- All `CommitType` values in declaration order; a `std::map` keyed by
`CommitType` iterates in this order. -/
def allCommitTypes : List CommitType :=
  [.kAdd, .kFeat, .kRefactor, .kDeprecated, .kFix, .kDocs, .kTest, .kPerf]

/-- `CommitTypeNames()` from `changelog.cc`: display name of each category. -/
def commitTypeName : CommitType → Str
  | .kAdd => "Add".data
  | .kFeat => "Feat".data
  | .kRefactor => "Refactor".data
  | .kDeprecated => "Deprecated".data
  | .kFix => "Fix".data
  | .kDocs => "Docs".data
  | .kTest => "Test".data
  | .kPerf => "Perf".data

/-- `PrefixToCommitType()` from `changelog.cc`: lookup of a lowercase token
in the fixed table (`std::map::find`). -/
def tokenToCommitType (tok : Str) : Option CommitType :=
  if tok = "add".data then some .kAdd
  else if tok = "feat".data then some .kFeat
  else if tok = "refactor".data then some .kRefactor
  else if tok = "deprecated".data then some .kDeprecated
  else if tok = "fix".data then some .kFix
  else if tok = "docs".data then some .kDocs
  else if tok = "test".data then some .kTest
  else if tok = "perf".data then some .kPerf
  else none

/-- `struct SemanticVersion` from `version.h` (`int` fields; every value the
program constructs is non-negative, so `Nat` models them). -/
structure SemanticVersion where
  major : Nat
  minor : Nat
  patch : Nat
  deriving DecidableEq, Repr

/-- `SemanticVersion::operator<` from `version.cc`: lexicographic tuple
comparison. -/
def semverLt (a b : SemanticVersion) : Bool :=
  if a.major ≠ b.major then a.major < b.major
  else if a.minor ≠ b.minor then a.minor < b.minor
  else a.patch < b.patch

/-- Non-strict companion of `semverLt` (`a < b` or `a == b`). -/
def semverLe (a b : SemanticVersion) : Bool :=
  semverLt a b || a == b

/-- Decimal rendering of a `Nat`, as `std::to_string` produces it. -/
def natToDigits (n : Nat) : Str :=
  (Nat.toDigits 10 n)

/-- `SemanticVersion::ToString` from `version.cc`: `vMAJOR.MINOR.PATCH`. -/
def semverToString (v : SemanticVersion) : Str :=
  'v' :: natToDigits v.major ++ '.' :: natToDigits v.minor ++
    '.' :: natToDigits v.patch

/-- `ComputeNextVersion` from `version.cc`: breaking → major+1 (resets
minor, patch); else a Feat/Add type → minor+1 (resets patch); else a
Fix/Perf/Refactor type → patch+1; else unchanged.  The `std::set<CommitType>`
argument is modelled as a list (only membership matters). -/
def computeNextVersion (base : SemanticVersion) (types : List CommitType)
    (hasBreaking : Bool) : SemanticVersion :=
  if hasBreaking then
    ⟨base.major + 1, 0, 0⟩
  else
    let hasMinor := types.any fun t => t == .kFeat || t == .kAdd
    let hasPatch := types.any fun t => t == .kFix || t == .kPerf || t == .kRefactor
    if hasMinor then ⟨base.major, base.minor + 1, 0⟩
    else if hasPatch then ⟨base.major, base.minor, base.patch + 1⟩
    else base

/-- **C2**.  `ComputeNextVersion` applies exactly the first matching rule:
breaking → `(major+1, 0, 0)`; else Feat or Add present → `(major, minor+1, 0)`;
else Fix, Perf or Refactor present → `(major, minor, patch+1)`; else the base;
together with the four concrete examples from the specification. -/
theorem c2_compute_next_first_match_wins :
    (∀ (base : SemanticVersion) (types : List CommitType) (hasBreaking : Bool),
      computeNextVersion base types hasBreaking =
        if hasBreaking then ⟨base.major + 1, 0, 0⟩
        else if CommitType.kFeat ∈ types ∨ CommitType.kAdd ∈ types then
          ⟨base.major, base.minor + 1, 0⟩
        else if CommitType.kFix ∈ types ∨ CommitType.kPerf ∈ types ∨
            CommitType.kRefactor ∈ types then
          ⟨base.major, base.minor, base.patch + 1⟩
        else base) ∧
    computeNextVersion ⟨1, 2, 3⟩ [.kFeat] false = ⟨1, 3, 0⟩ ∧
    computeNextVersion ⟨1, 2, 3⟩ [.kFix] false = ⟨1, 2, 4⟩ ∧
    computeNextVersion ⟨1, 2, 3⟩ [.kDocs] false = ⟨1, 2, 3⟩ ∧
    computeNextVersion ⟨1, 2, 3⟩ [.kFeat, .kFix] true = ⟨2, 0, 0⟩ := by
  refine ⟨fun base types hasBreaking => ?_, by decide, by decide, by decide, by decide⟩
  unfold computeNextVersion
  cases hasBreaking with
  | true => simp
  | false =>
    rw [if_neg Bool.false_ne_true, if_neg Bool.false_ne_true]
    have hminor : (types.any fun t => t == .kFeat || t == .kAdd) = true ↔
        CommitType.kFeat ∈ types ∨ CommitType.kAdd ∈ types := by
      simp only [List.any_eq_true, Bool.or_eq_true, beq_iff_eq]
      constructor
      · rintro ⟨t, ht, rfl | rfl⟩
        · exact Or.inl ht
        · exact Or.inr ht
      · rintro (h | h)
        · exact ⟨_, h, Or.inl rfl⟩
        · exact ⟨_, h, Or.inr rfl⟩
    have hpatch : (types.any fun t => t == .kFix || t == .kPerf || t == .kRefactor) = true ↔
        CommitType.kFix ∈ types ∨ CommitType.kPerf ∈ types ∨
          CommitType.kRefactor ∈ types := by
      simp only [List.any_eq_true, Bool.or_eq_true, beq_iff_eq]
      constructor
      · rintro ⟨t, ht, (rfl | rfl) | rfl⟩
        · exact Or.inl ht
        · exact Or.inr (Or.inl ht)
        · exact Or.inr (Or.inr ht)
      · rintro (h | h | h)
        · exact ⟨_, h, Or.inl (Or.inl rfl)⟩
        · exact ⟨_, h, Or.inl (Or.inr rfl)⟩
        · exact ⟨_, h, Or.inr rfl⟩
    by_cases hm : CommitType.kFeat ∈ types ∨ CommitType.kAdd ∈ types
    · rw [if_pos (hminor.mpr hm), if_pos hm]
    · rw [if_neg (fun h => hm (hminor.mp h)), if_neg hm]
      by_cases hp : CommitType.kFix ∈ types ∨ CommitType.kPerf ∈ types ∨
          CommitType.kRefactor ∈ types
      · rw [if_pos (hpatch.mpr hp), if_pos hp]
      · rw [if_neg (fun h => hp (hpatch.mp h)), if_neg hp]

/-- The ASCII lowercase map that `::tolower` applies in the C locale. -/
def asciiLower (c : Char) : Char :=
  if 'A' ≤ c ∧ c ≤ 'Z' then Char.ofNat (c.toNat + 32) else c

/-- `Changelog::IsBreakingChange` from `changelog.cc`: locate the first `:`;
no colon or colon at position 0 → `false`; otherwise test whether the
character immediately before it is `!`. -/
def isBreakingChange (summary : Str) : Bool :=
  match summary.findIdx? (fun c => c == ':') with
  | none => false
  | some 0 => false
  | some (i + 1) =>
    match summary.get? i with
    | some c => c == '!'
    | none => false

/-- `Changelog::CategorizeCommit` from `changelog.cc`: take the substring
before the first `:` (no colon → `nullopt`), lowercase it, cut at the first
`(` if any, drop one trailing `!`, and look the token up in the table. -/
def categorizeCommit (summary : Str) : Option CommitType :=
  match summary.findIdx? (fun c => c == ':') with
  | none => none
  | some colonPos =>
    let low := (summary.take colonPos).map asciiLower
    let noScope := low.takeWhile (fun c => c != '(')
    let tok := if noScope.getLast? = some '!' then noScope.dropLast else noScope
    tokenToCommitType tok

/-- First-colon index of `before ++ ':' :: rest` when `before` has no colon. -/
theorem findIdx_colon_append (before rest : Str) (h : ':' ∉ before) :
    (before ++ ':' :: rest).findIdx? (fun c => c == ':') = some before.length := by
  induction before with
  | nil => simp [List.findIdx?_cons]
  | cons c cs ih =>
    have hc : (c == ':') = false := by
      simp only [beq_eq_false_iff_ne, ne_eq]
      rintro rfl
      exact h (List.mem_cons_self _ _)
    have ihs := ih (fun hm => h (List.mem_cons_of_mem c hm))
    simp [List.findIdx?_cons, hc, List.findIdx?_succ, ihs]

/-- **C6**.  `IsBreaking` is true exactly when the text before the first `:`
is non-empty and ends in `!`; the tail after that colon (in particular any
later colons) is irrelevant, and a summary without any colon is never
breaking. -/
theorem c6_is_breaking_first_colon :
    (∀ before rest : Str, ':' ∉ before →
      (isBreakingChange (before ++ ':' :: rest) = true ↔
        before.getLast? = some '!')) ∧
    (∀ s : Str, ':' ∉ s → isBreakingChange s = false) := by
  constructor
  · intro before rest h
    unfold isBreakingChange
    rw [findIdx_colon_append before rest h]
    match hb : before, h with
    | [], _ => simp
    | b :: bs, h =>
      have hlen : (b :: bs).length = bs.length + 1 := rfl
      rw [hlen]
      have hget : ((b :: bs) ++ ':' :: rest).get? bs.length = (b :: bs).getLast? := by
        rw [List.get?_append (by simp)]
        rw [List.getLast?_eq_get? ]
        simp
      simp only [hget]
      cases hg : (b :: bs).getLast? with
      | none => simp at hg
      | some c => simp
  · intro s h
    unfold isBreakingChange
    have : s.findIdx? (fun c => c == ':') = none := by
      rw [List.findIdx?_eq_none_iff]
      intro x hx
      simp only [beq_eq_false_iff_ne, ne_eq]
      rintro rfl
      exact h hx
    rw [this]

/-- Closed instance of `c6_is_breaking_first_colon`: `"feat!: x"` is
breaking, `"feat: x!"` is not, and a colon-free summary is not. -/
theorem c6_witness :
    (':' ∉ "feat!".data ∧
      (isBreakingChange ("feat!".data ++ ':' :: " x".data) = true ↔
        "feat!".data.getLast? = some '!')) ∧
    (':' ∉ "no colon here!".data ∧
      isBreakingChange "no colon here!".data = false) :=
  ⟨⟨by decide, c6_is_breaking_first_colon.1 "feat!".data " x".data (by decide)⟩,
   ⟨by decide, c6_is_breaking_first_colon.2 "no colon here!".data (by decide)⟩⟩

/-- **C5**.  `Categorize` returns `none` on colon-free summaries; otherwise
it lowercases the text before the first colon, strips from the first `(`,
strips one trailing `!`, and looks the token up in the fixed table (so an
unknown token yields `none`, never some other bucket); with concrete
examples including the specification's `Categorize("fix(core)!: x") = Fix`. -/
theorem c5_categorize_first_colon_table :
    (∀ s : Str, ':' ∉ s → categorizeCommit s = none) ∧
    (∀ before rest : Str, ':' ∉ before →
      categorizeCommit (before ++ ':' :: rest) =
        tokenToCommitType
          (let noScope := (before.map asciiLower).takeWhile (fun c => c != '(')
           if noScope.getLast? = some '!' then noScope.dropLast else noScope)) ∧
    categorizeCommit "fix(core)!: x".data = some .kFix ∧
    categorizeCommit "FEAT!: y".data = some .kFeat ∧
    categorizeCommit "chore: z".data = none ∧
    categorizeCommit "no colon".data = none := by
  refine ⟨?_, ?_, by decide, by decide, by decide, by decide⟩
  · intro s h
    unfold categorizeCommit
    have : s.findIdx? (fun c => c == ':') = none := by
      rw [List.findIdx?_eq_none_iff]
      intro x hx
      simp only [beq_eq_false_iff_ne, ne_eq]
      rintro rfl
      exact h hx
    rw [this]
  · intro before rest h
    unfold categorizeCommit
    rw [findIdx_colon_append before rest h]
    have htake : (before ++ ':' :: rest).take before.length = before := by
      rw [List.take_append_eq_append_take]
      simp
    simp only [htake]

/-- Closed instance of `c5_categorize_first_colon_table` at
`"fix(core)!: x"`: the characterization agrees with the direct run. -/
theorem c5_witness :
    ':' ∉ "fix(core)!".data ∧
    categorizeCommit ("fix(core)!".data ++ ':' :: " x".data) =
      tokenToCommitType
        (let noScope := ("fix(core)!".data.map asciiLower).takeWhile (fun c => c != '(')
         if noScope.getLast? = some '!' then noScope.dropLast else noScope) :=
  ⟨by decide,
   c5_categorize_first_colon_table.2.1 "fix(core)!".data " x".data (by decide)⟩

/-- Splitting a character list at every occurrence of a separator, as the
anchored regex groups of `SemanticVersion::Parse` decompose the input. -/
def splitOnChar (sep : Char) : Str → List Str
  | [] => [[]]
  | c :: cs =>
    if c == sep then [] :: splitOnChar sep cs
    else
      match splitOnChar sep cs with
      | [] => [[c]]
      | h :: t => (c :: h) :: t

/-- Value of a decimal digit run. -/
def digitsToNat (ds : Str) : Nat :=
  ds.foldl (fun a c => 10 * a + (c.toNat - '0'.toNat)) 0

/-- `std::stoi` on a digit run: its value, unless that exceeds `INT_MAX`
(`std::stoi` then throws `std::out_of_range`). -/
def stoiDigits (ds : Str) : Option Nat :=
  if digitsToNat ds ≤ 2147483647 then some (digitsToNat ds) else none

/-- `SemanticVersion::Parse` from `version.cc`: the anchored regex
`v?(\d+)\.(\d+)\.(\d+)` followed by `std::stoi` on each group; a regex
mismatch or an out-of-range component is a thrown exception, modelled as
`none`. -/
def semverParse (s : Str) : Option SemanticVersion :=
  let t := match s with
    | 'v' :: rest => rest
    | _ => s
  match splitOnChar '.' t with
  | [d1, d2, d3] =>
    if d1 ≠ [] ∧ d1.all Char.isDigit ∧ d2 ≠ [] ∧ d2.all Char.isDigit ∧
        d3 ≠ [] ∧ d3.all Char.isDigit then
      match stoiDigits d1, stoiDigits d2, stoiDigits d3 with
      | some a, some b, some c => some ⟨a, b, c⟩
      | _, _, _ => none
    else none
  | _ => none

/-- One step of the tag scan in `Changelog::DetectInitialVersion`: an
unparsable tag is skipped (`catch (...) continue`); a parsed version
replaces the best-so-far when none was found yet or it is larger. -/
def detectStep (acc : SemanticVersion × Bool) (tag : Str) :
    SemanticVersion × Bool :=
  match semverParse tag with
  | some v => if !acc.2 || semverLt acc.1 v then (v, true) else acc
  | none => acc

/-- `Changelog::DetectInitialVersion` from `changelog.cc`: scan all tags,
keep the highest parseable version, and default to `0.1.0` when no tag
parses. -/
def detectInitialVersion (tags : List Str) : SemanticVersion :=
  let r := tags.foldl detectStep (⟨0, 0, 0⟩, false)
  if r.2 then r.1 else ⟨0, 1, 0⟩

/-- `semverLt` is the lexicographic strict order on (major, minor, patch). -/
theorem semverLt_iff (a b : SemanticVersion) :
    semverLt a b = true ↔
      a.major < b.major ∨ (a.major = b.major ∧
        (a.minor < b.minor ∨ (a.minor = b.minor ∧ a.patch < b.patch))) := by
  unfold semverLt
  split_ifs with h1 h2 <;> simp only [decide_eq_true_eq] <;> omega

/-- `semverLe` is the lexicographic order on (major, minor, patch). -/
theorem semverLe_iff (a b : SemanticVersion) :
    semverLe a b = true ↔
      a.major < b.major ∨ (a.major = b.major ∧
        (a.minor < b.minor ∨ (a.minor = b.minor ∧ a.patch ≤ b.patch))) := by
  unfold semverLe
  rw [Bool.or_eq_true, semverLt_iff, beq_iff_eq]
  rcases a with ⟨a1, a2, a3⟩
  rcases b with ⟨b1, b2, b3⟩
  simp only [SemanticVersion.mk.injEq]
  omega

theorem semverLe_refl (a : SemanticVersion) : semverLe a a = true := by
  rw [semverLe_iff]; omega

theorem semverLe_trans {a b c : SemanticVersion} (h1 : semverLe a b = true)
    (h2 : semverLe b c = true) : semverLe a c = true := by
  rw [semverLe_iff] at h1 h2 ⊢; omega

theorem semverLt_le {a b : SemanticVersion} (h : semverLt a b = true) :
    semverLe a b = true := by
  rw [semverLt_iff] at h; rw [semverLe_iff]; omega

theorem semverNotLt_le {a b : SemanticVersion} (h : semverLt a b = false) :
    semverLe b a = true := by
  have h' : ¬ (semverLt a b = true) := by simp [h]
  rw [semverLt_iff] at h'; rw [semverLe_iff]; omega

/-- The tag-scanning fold keeps the running maximum of all parseable tags:
its flag records whether anything parsed, its version dominates every
parseable tag and is one of them (or the untouched accumulator). -/
theorem detect_fold_spec (tags : List Str) :
    ∀ acc : SemanticVersion × Bool,
      (tags.foldl detectStep acc).2 =
          (acc.2 || !(tags.filterMap semverParse).isEmpty) ∧
      (acc.2 = true → semverLe acc.1 (tags.foldl detectStep acc).1 = true) ∧
      (∀ v ∈ tags.filterMap semverParse,
          semverLe v (tags.foldl detectStep acc).1 = true) ∧
      ((tags.foldl detectStep acc).2 = true →
        (acc.2 = true ∧ (tags.foldl detectStep acc).1 = acc.1) ∨
          (tags.foldl detectStep acc).1 ∈ tags.filterMap semverParse) := by
  induction tags with
  | nil => intro acc; simp [detectStep, semverLe_refl]
  | cons tag rest ih =>
    intro acc
    rw [List.foldl_cons]
    cases hparse : semverParse tag with
    | none =>
      have hstep : detectStep acc tag = acc := by unfold detectStep; rw [hparse]
      rw [hstep]
      have hfm : (tag :: rest).filterMap semverParse = rest.filterMap semverParse := by
        rw [List.filterMap_cons, hparse]
      rw [hfm]
      exact ih acc
    | some v =>
      have hfm : (tag :: rest).filterMap semverParse =
          v :: rest.filterMap semverParse := by
        rw [List.filterMap_cons, hparse]
      rw [hfm]
      by_cases hcond : (!acc.2 || semverLt acc.1 v) = true
      · have hstep : detectStep acc tag = (v, true) := by
          unfold detectStep; rw [hparse]; simp only [hcond, if_true]
        rw [hstep]
        obtain ⟨ih1, ih2, ih3, ih4⟩ := ih (v, true)
        have hvr : semverLe v (rest.foldl detectStep (v, true)).1 = true := ih2 rfl
        refine ⟨by simp [ih1], ?_, ?_, ?_⟩
        · intro hacc2
          rcases Bool.or_eq_true _ _ |>.mp hcond with hna | hlt
          · rw [hacc2] at hna; simp at hna
          · exact semverLe_trans (semverLt_le hlt) hvr
        · intro w hw
          rcases List.mem_cons.mp hw with rfl | hw'
          · exact hvr
          · exact ih3 w hw'
        · intro hr2
          rcases ih4 hr2 with ⟨_, heq⟩ | hmem
          · exact Or.inr (by rw [heq]; exact List.mem_cons_self _ _)
          · exact Or.inr (List.mem_cons_of_mem _ hmem)
      · have hcondf : (!acc.2 || semverLt acc.1 v) = false := by
          cases h : (!acc.2 || semverLt acc.1 v)
          · rfl
          · exact absurd h hcond
        have hstep : detectStep acc tag = acc := by
          unfold detectStep; rw [hparse]; simp [hcondf]
        have hacc2 : acc.2 = true := by
          by_contra hn
          have hf : acc.2 = false := by revert hn; cases acc.2 <;> simp
          apply hcond; simp [hf]
        have hltf : semverLt acc.1 v = false := by
          by_contra hn
          have hf : semverLt acc.1 v = true := by
            revert hn; cases semverLt acc.1 v <;> simp
          apply hcond; simp [hf]
        rw [hstep]
        obtain ⟨ih1, ih2, ih3, ih4⟩ := ih acc
        have haccr : semverLe acc.1 (rest.foldl detectStep acc).1 = true := ih2 hacc2
        refine ⟨by simp [ih1, hacc2], fun _ => haccr, ?_, ?_⟩
        · intro w hw
          rcases List.mem_cons.mp hw with rfl | hw'
          · exact semverLe_trans (semverNotLt_le hltf) haccr
          · exact ih3 w hw'
        · intro hr2
          rcases ih4 hr2 with ⟨h2, heq⟩ | hmem
          · exact Or.inl ⟨h2, heq⟩
          · exact Or.inr (List.mem_cons_of_mem _ hmem)

/-- The tag scan ignores unparsable tags entirely. -/
theorem detect_fold_skip (tags : List Str) :
    ∀ acc, tags.foldl detectStep acc =
      (tags.filter (fun t => (semverParse t).isSome)).foldl detectStep acc := by
  induction tags with
  | nil => intro acc; rfl
  | cons tag rest ih =>
    intro acc
    rw [List.foldl_cons, List.filter_cons]
    cases hparse : semverParse tag with
    | none =>
      have hstep : detectStep acc tag = acc := by unfold detectStep; rw [hparse]
      simp only [hparse, Option.isSome_none, hstep]
      exact ih acc
    | some v =>
      simp only [hparse, Option.isSome_some, if_true, List.foldl_cons]
      exact ih (detectStep acc tag)

/-- **C7**.  Seed detection skips unparsable tags without aborting, returns
the maximum parseable version under the lexicographic order, and defaults to
`0.1.0` when no tag parses; with the specification's concrete examples. -/
theorem c7_detect_seed_max_or_default :
    (∀ tags : List Str, detectInitialVersion tags =
        detectInitialVersion (tags.filter (fun t => (semverParse t).isSome))) ∧
    (∀ tags : List Str, tags.filterMap semverParse = [] →
        detectInitialVersion tags = ⟨0, 1, 0⟩) ∧
    (∀ tags : List Str, tags.filterMap semverParse ≠ [] →
        detectInitialVersion tags ∈ tags.filterMap semverParse ∧
        ∀ v ∈ tags.filterMap semverParse,
          semverLe v (detectInitialVersion tags) = true) ∧
    detectInitialVersion ["v1.2.0".data, "nonsense".data, "v1.3.5".data] =
      ⟨1, 3, 5⟩ ∧
    detectInitialVersion [] = ⟨0, 1, 0⟩ := by
  have hbase : ∀ tags : List Str,
      (tags.foldl detectStep (⟨0, 0, 0⟩, false)).2 =
        !(tags.filterMap semverParse).isEmpty := by
    intro tags
    have := (detect_fold_spec tags (⟨0, 0, 0⟩, false)).1
    simpa using this
  refine ⟨?_, ?_, ?_, by decide, by decide⟩
  · intro tags
    unfold detectInitialVersion
    rw [detect_fold_skip tags (⟨0, 0, 0⟩, false)]
  · intro tags hnil
    unfold detectInitialVersion
    have h2 := hbase tags
    rw [hnil] at h2
    simp only [List.isEmpty_nil, Bool.not_true] at h2
    simp [h2]
  · intro tags hne
    have h2 := hbase tags
    have hne' : (tags.filterMap semverParse).isEmpty = false := by
      cases hfm : tags.filterMap semverParse with
      | nil => exact absurd hfm hne
      | cons a l => simp
    rw [hne'] at h2
    simp only [Bool.not_false] at h2
    obtain ⟨_, _, h3, h4⟩ := detect_fold_spec tags (⟨0, 0, 0⟩, false)
    have hval : detectInitialVersion tags =
        (tags.foldl detectStep (⟨0, 0, 0⟩, false)).1 := by
      unfold detectInitialVersion
      simp [h2]
    rw [hval]
    refine ⟨?_, h3⟩
    rcases h4 h2 with ⟨hf, _⟩ | hmem
    · exact absurd hf (by simp)
    · exact hmem

/-- Closed instance of `c7_detect_seed_max_or_default`: the default and the
maximum clauses at concrete tag lists. -/
theorem c7_witness :
    (["zz".data, "v1.x".data].filterMap semverParse = [] ∧
      detectInitialVersion ["zz".data, "v1.x".data] = ⟨0, 1, 0⟩) ∧
    (["v1.2.0".data, "nonsense".data, "v1.3.5".data].filterMap semverParse ≠ [] ∧
      detectInitialVersion ["v1.2.0".data, "nonsense".data, "v1.3.5".data] ∈
        ["v1.2.0".data, "nonsense".data, "v1.3.5".data].filterMap semverParse ∧
      ∀ v ∈ ["v1.2.0".data, "nonsense".data, "v1.3.5".data].filterMap semverParse,
        semverLe v (detectInitialVersion
          ["v1.2.0".data, "nonsense".data, "v1.3.5".data]) = true) :=
  ⟨⟨by decide, c7_detect_seed_max_or_default.2.1 _ (by decide)⟩,
   ⟨by decide, c7_detect_seed_max_or_default.2.2.1 _ (by decide)⟩⟩

/-- Lexicographic comparison of character lists (`std::string::operator<`),
the order in which a `std::set<std::string>` keeps its elements. -/
def strLt : Str → Str → Bool
  | [], [] => false
  | [], _ :: _ => true
  | _ :: _, [] => false
  | a :: as, b :: bs => if a < b then true else if b < a then false else strLt as bs

/-- `std::set<std::string>::insert`: sorted insertion without duplication. -/
def insertSet (s : Str) : List Str → List Str
  | [] => [s]
  | x :: xs =>
    if strLt s x then s :: x :: xs
    else if s = x then x :: xs
    else x :: insertSet s xs

/-- Membership in an insertion-built set. -/
theorem mem_insertSet (e s : Str) (l : List Str) :
    e ∈ insertSet s l ↔ e = s ∨ e ∈ l := by
  induction l with
  | nil => simp [insertSet]
  | cons x xs ih =>
    unfold insertSet
    split_ifs with h1 h2
    · simp
    · subst h2
      simp only [List.mem_cons]
      tauto
    · simp only [List.mem_cons, ih]
      tauto

/-- `pat` occurs at the start of `s`. -/
def matchesAt : Str → Str → Bool
  | [], _ => true
  | _ :: _, [] => false
  | p :: ps, c :: cs => p == c && matchesAt ps cs

/-- `std::string::find(pat) != npos`: `pat` occurs somewhere in `s`. -/
def containsSub (s pat : Str) : Bool :=
  match s with
  | [] => matchesAt pat []
  | _ :: rest => matchesAt pat s || containsSub rest pat

/-- `struct SectionData` from `changelog.h`: the per-category entry sets
(`std::map<CommitType, std::set<std::string>>`, modelled as a function into
the set's member list) and the breaking flag. -/
structure SectionData where
  entries : CommitType → List Str
  has_breaking_change : Bool

/-- `struct ParsedSection` from `changelog.h`. -/
structure ParsedSection where
  name : Str
  version : Option SemanticVersion
  date : Str
  entries : CommitType → List Str
  has_breaking_change : Bool

/-- Every `CommitType` is enumerated by `allCommitTypes`. -/
theorem mem_allCommitTypes (t : CommitType) : t ∈ allCommitTypes := by
  cases t <;> simp [allCommitTypes]

/-- `Changelog::FlattenEntries` from `changelog.cc`: the union of every
entry string of every historical section and category, built by set
insertion. -/
def flattenEntries (sections : List ParsedSection) : List Str :=
  sections.foldl
    (fun all sec =>
      allCommitTypes.foldl
        (fun a t => (sec.entries t).foldl (fun a e => insertSet e a) a) all)
    []

theorem mem_foldl_insertSet (l : List Str) (e : Str) :
    ∀ acc, e ∈ l.foldl (fun a x => insertSet x a) acc ↔ e ∈ l ∨ e ∈ acc := by
  induction l with
  | nil => intro acc; simp
  | cons x xs ih =>
    intro acc
    rw [List.foldl_cons, ih, mem_insertSet]
    simp only [List.mem_cons]
    tauto

theorem mem_foldl_types (sec : ParsedSection) (e : Str) :
    ∀ (ts : List CommitType) (acc : List Str),
      (e ∈ ts.foldl
          (fun a t => (sec.entries t).foldl (fun a e => insertSet e a) a) acc ↔
        (∃ t ∈ ts, e ∈ sec.entries t) ∨ e ∈ acc) := by
  intro ts
  induction ts with
  | nil => intro acc; simp
  | cons t ts ih =>
    intro acc
    rw [List.foldl_cons, ih, mem_foldl_insertSet]
    simp only [List.mem_cons]
    constructor
    · rintro (⟨u, hu, he⟩ | he | he)
      · exact Or.inl ⟨u, Or.inr hu, he⟩
      · exact Or.inl ⟨t, Or.inl rfl, he⟩
      · exact Or.inr he
    · rintro (⟨u, rfl | hu, he⟩ | he)
      · exact Or.inr (Or.inl he)
      · exact Or.inl ⟨u, hu, he⟩
      · exact Or.inr (Or.inr he)

/-- Membership in the flattened historical set: an entry is in
`FlattenEntries(sections)` exactly when it occurs in some category of some
section, regardless of the section it came from. -/
theorem mem_flattenEntries (sections : List ParsedSection) (e : Str) :
    e ∈ flattenEntries sections ↔
      ∃ sec ∈ sections, ∃ t, e ∈ sec.entries t := by
  have main : ∀ (ss : List ParsedSection) (acc : List Str),
      e ∈ ss.foldl
          (fun all sec =>
            allCommitTypes.foldl
              (fun a t => (sec.entries t).foldl (fun a e => insertSet e a) a) all)
          acc ↔
        (∃ sec ∈ ss, ∃ t, e ∈ sec.entries t) ∨ e ∈ acc := by
    intro ss
    induction ss with
    | nil => intro acc; simp
    | cons sec ss ih =>
      intro acc
      rw [List.foldl_cons, ih, mem_foldl_types]
      simp only [List.mem_cons]
      constructor
      · rintro (⟨s, hs, ht⟩ | ⟨t, _, he⟩ | he)
        · exact Or.inl ⟨s, Or.inr hs, ht⟩
        · exact Or.inl ⟨sec, Or.inl rfl, t, he⟩
        · exact Or.inr he
      · rintro (⟨s, rfl | hs, ht⟩ | he)
        · exact Or.inr (Or.inl (by
            obtain ⟨t, he⟩ := ht
            exact ⟨t, mem_allCommitTypes t, he⟩))
        · exact Or.inl ⟨s, hs, ht⟩
        · exact Or.inr (Or.inr he)
  rw [flattenEntries, main]
  simp

/-- `Changelog::FilterNewEntries` from `changelog.cc`: per category, keep
only the entries absent from the existing flat set (inserting survivors into
fresh sets), and recompute the breaking flag from the surviving entries
alone (`log.find("!:") != npos` on inserted entries only). -/
def filterNewEntries (current : SectionData) (existing : List Str) :
    SectionData where
  entries := fun t =>
    (current.entries t).foldl
      (fun a log => if log ∈ existing then a else insertSet log a) []
  has_breaking_change :=
    allCommitTypes.any fun t =>
      (current.entries t).any fun log =>
        !decide (log ∈ existing) && containsSub log ('!' :: ':' :: [])

theorem mem_filterNew_fold (l : List Str) (existing : List Str) (e : Str) :
    ∀ acc,
      (e ∈ l.foldl
          (fun a log => if log ∈ existing then a else insertSet log a) acc ↔
        (e ∈ l ∧ e ∉ existing) ∨ e ∈ acc) := by
  induction l with
  | nil => intro acc; simp
  | cons x xs ih =>
    intro acc
    rw [List.foldl_cons]
    by_cases hx : x ∈ existing
    · rw [if_pos hx, ih]
      simp only [List.mem_cons]
      constructor
      · rintro (⟨h1, h2⟩ | h)
        · exact Or.inl ⟨Or.inr h1, h2⟩
        · exact Or.inr h
      · rintro (⟨rfl | h1, h2⟩ | h)
        · exact absurd hx h2
        · exact Or.inl ⟨h1, h2⟩
        · exact Or.inr h
    · rw [if_neg hx, ih, mem_insertSet]
      simp only [List.mem_cons]
      constructor
      · rintro (⟨h1, h2⟩ | rfl | h)
        · exact Or.inl ⟨Or.inr h1, h2⟩
        · exact Or.inl ⟨Or.inl rfl, hx⟩
        · exact Or.inr h
      · rintro (⟨rfl | h1, h2⟩ | h)
        · exact Or.inr (Or.inl rfl)
        · exact Or.inl ⟨h1, h2⟩
        · exact Or.inr (Or.inr h)

/-- Membership in the filtered result: exactly the current entries of that
category that are absent from the existing flat set. -/
theorem mem_filterNewEntries (current : SectionData) (existing : List Str)
    (t : CommitType) (e : Str) :
    e ∈ (filterNewEntries current existing).entries t ↔
      e ∈ current.entries t ∧ e ∉ existing := by
  unfold filterNewEntries
  rw [mem_filterNew_fold]
  simp

/-- The breaking flag of `FilterNewEntries`, read off the definition. -/
theorem filterNew_flag_def (current : SectionData) (existing : List Str) :
    (filterNewEntries current existing).has_breaking_change =
      allCommitTypes.any fun t =>
        (current.entries t).any fun log =>
          !decide (log ∈ existing) && containsSub log ('!' :: ':' :: []) := rfl

/-- Scanning the surviving entries is the same as scanning the current
entries restricted to non-duplicates. -/
theorem any_survivors (current : SectionData) (existing : List Str)
    (t : CommitType) (P : Str → Bool) :
    ((filterNewEntries current existing).entries t).any P =
      (current.entries t).any fun log => !decide (log ∈ existing) && P log := by
  rw [Bool.eq_iff_iff]
  simp only [List.any_eq_true, Bool.and_eq_true, Bool.not_eq_true',
    decide_eq_false_iff_not]
  constructor
  · rintro ⟨log, hmem, hP⟩
    obtain ⟨h1, h2⟩ := (mem_filterNewEntries current existing t log).mp hmem
    exact ⟨log, h1, h2, hP⟩
  · rintro ⟨log, hmem, hnot, hP⟩
    exact ⟨log, (mem_filterNewEntries current existing t log).mpr ⟨hmem, hnot⟩, hP⟩

/-- **C8**.  The breaking flag of `FilterNew`'s result is a function of the
surviving entries only: it equals "some surviving entry contains `!:`", it
ignores the input's own flag entirely, and it is `false` whenever every
entry was filtered out or no surviving entry carries the `!:` marker — a
filtered-out duplicate never forces a bump. -/
theorem c8_breaking_flag_from_survivors :
    (∀ (current : SectionData) (existing : List Str),
      (filterNewEntries current existing).has_breaking_change =
        allCommitTypes.any fun t =>
          ((filterNewEntries current existing).entries t).any fun log =>
            containsSub log ('!' :: ':' :: [])) ∧
    (∀ (entries : CommitType → List Str) (b b' : Bool) (existing : List Str),
      filterNewEntries ⟨entries, b⟩ existing =
        filterNewEntries ⟨entries, b'⟩ existing) ∧
    (∀ (current : SectionData) (existing : List Str),
      (∀ t, (filterNewEntries current existing).entries t = []) →
        (filterNewEntries current existing).has_breaking_change = false) ∧
    (∀ (current : SectionData) (existing : List Str),
      (∀ t log, log ∈ (filterNewEntries current existing).entries t →
          containsSub log ('!' :: ':' :: []) = false) →
        (filterNewEntries current existing).has_breaking_change = false) := by
  have hmain : ∀ (current : SectionData) (existing : List Str),
      (filterNewEntries current existing).has_breaking_change =
        allCommitTypes.any fun t =>
          ((filterNewEntries current existing).entries t).any fun log =>
            containsSub log ('!' :: ':' :: []) := by
    intro current existing
    rw [filterNew_flag_def]
    have h : (fun t => ((filterNewEntries current existing).entries t).any
          fun log => containsSub log ('!' :: ':' :: [])) =
        fun t => (current.entries t).any fun log =>
          !decide (log ∈ existing) && containsSub log ('!' :: ':' :: []) :=
      funext fun t => any_survivors current existing t _
    rw [h]
  refine ⟨hmain, fun entries b b' existing => rfl, ?_, ?_⟩
  · intro current existing hempty
    rw [hmain]
    rw [List.any_eq_false]
    intro t _
    rw [hempty t]
    simp
  · intro current existing hnone
    rw [hmain]
    rw [List.any_eq_false]
    intro t _
    rw [List.any_eq_true]
    rintro ⟨log, hlog, hc⟩
    rw [hnone t log hlog] at hc
    exact Bool.false_ne_true hc

/-- Closed instance of `c8_breaking_flag_from_survivors`: with one breaking
entry already recorded in history, the surviving set is empty and the flag
is recomputed to `false`, whatever the input flag said. -/
theorem c8_witness :
    (∀ t, (filterNewEntries
        ⟨fun t => if t = .kFeat then ["feat!: a".data] else [], true⟩
        ["feat!: a".data]).entries t = []) ∧
    (filterNewEntries
        ⟨fun t => if t = .kFeat then ["feat!: a".data] else [], true⟩
        ["feat!: a".data]).has_breaking_change = false :=
  ⟨by intro t; cases t <;> decide,
   c8_breaking_flag_from_survivors.2.2.1 _ _ (by intro t; cases t <;> decide)⟩

/-- The em dash (`—`) that `FormatChangelog` writes between the
section name and the date. -/
def emDash : Char := Char.ofNat 8212

/-- Characters of the `\s` class of `std::regex` (C locale). -/
def isWsChar (c : Char) : Bool :=
  c == ' ' || c == '\t' || c == '\n' || c == Char.ofNat 11 ||
    c == Char.ofNat 12 || c == '\r'

/-- Characters of the `\w` class of `std::regex` (C locale). -/
def isWordChar (c : Char) : Bool :=
  ('a' ≤ c && c ≤ 'z') || ('A' ≤ c && c ≤ 'Z') || c.isDigit || c == '_'

/-- The header line `## <name> — <date>` of a rendered section (the final
section names already carry their `@version` suffix when one is assigned). -/
def sectionHeaderLine (name date : Str) : Str :=
  '#' :: '#' :: ' ' :: (name ++ ' ' :: emDash :: ' ' :: date)

/-- The `- <log>\n` lines of one category, accumulated left to right as the
output stream receives them. -/
def renderLogs (logs : List Str) : Str :=
  logs.foldl (fun acc log => acc ++ ('-' :: ' ' :: (log ++ ['\n']))) []

/-- One `### <Type>` block of `Changelog::FormatChangelog` — skipped
entirely when the category is empty. -/
def renderTypeBlock (data : SectionData) (t : CommitType) : Str :=
  if (data.entries t).isEmpty then []
  else
    ('#' :: '#' :: '#' :: ' ' :: (commitTypeName t ++ '\n' :: '\n' :: [])) ++
      renderLogs (data.entries t) ++ ['\n']

/-- One section of `Changelog::FormatChangelog`: header, blank line, then
the category blocks in declaration order. -/
def renderSection (date : Str) (nd : Str × SectionData) : Str :=
  (sectionHeaderLine nd.1 date ++ '\n' :: '\n' :: []) ++
    allCommitTypes.foldl (fun acc t => acc ++ renderTypeBlock nd.2 t) []

/-- `Changelog::FormatChangelog` from `changelog.cc`: the sections rendered
in the caller-supplied order. -/
def formatChangelog (sections : List (Str × SectionData)) (date : Str) : Str :=
  sections.foldl (fun acc nd => acc ++ renderSection date nd) []

/-- Rejoin a list of newline-free lines into a text, one `\n` after each. -/
def joinLines (ls : List Str) : Str :=
  ls.foldr (fun l acc => l ++ '\n' :: acc) []

/-- `std::getline` over a text: the segments between newlines; a trailing
newline does not produce an extra empty line. -/
def getLines : Str → List Str
  | [] => []
  | c :: cs =>
    if c = '\n' then [] :: getLines cs
    else
      match getLines cs with
      | [] => [[c]]
      | l :: ls => (c :: l) :: ls

theorem joinLines_append (a b : List Str) :
    joinLines (a ++ b) = joinLines a ++ joinLines b := by
  induction a with
  | nil => rfl
  | cons l ls ih =>
    show l ++ '\n' :: joinLines (ls ++ b) = (l ++ '\n' :: joinLines ls) ++ joinLines b
    rw [ih]
    simp

theorem getLines_join_cons (l : Str) (rest : Str) (h : '\n' ∉ l) :
    getLines (l ++ '\n' :: rest) = l :: getLines rest := by
  induction l with
  | nil => simp [getLines]
  | cons c cs ih =>
    have hc : c ≠ '\n' := fun hcn => h (hcn ▸ List.mem_cons_self c cs)
    have ihr := ih (fun hm => h (List.mem_cons_of_mem c hm))
    rw [List.cons_append]
    unfold getLines
    rw [if_neg hc, ihr]
    simp only [List.cons.injEq, true_and]
    rw [getLines.eq_def]

/-- Splitting the join of newline-free lines (followed by anything)
recovers exactly those lines. -/
theorem getLines_joinLines_append (ls : List Str) (rest : Str)
    (h : ∀ l ∈ ls, '\n' ∉ l) :
    getLines (joinLines ls ++ rest) = ls ++ getLines rest := by
  induction ls with
  | nil => rfl
  | cons l ls ih =>
    have h1 : '\n' ∉ l := h l (List.mem_cons_self l ls)
    have h2 : ∀ x ∈ ls, '\n' ∉ x := fun x hx => h x (List.mem_cons_of_mem l hx)
    show getLines ((l ++ '\n' :: joinLines ls) ++ rest) = (l :: ls) ++ getLines rest
    rw [List.append_assoc, List.cons_append, getLines_join_cons l _ h1, ih h2]
    rfl

/-- The date group `\d{4}-\d{2}-\d{2}` of the section-header regex. -/
def dateMatch (date : Str) : Bool :=
  match date with
  | [a, b, c, d, e, f, g, h, i, j] =>
    a.isDigit && b.isDigit && c.isDigit && d.isDigit && e == '-' &&
      f.isDigit && g.isDigit && h == '-' && i.isDigit && j.isDigit
  | _ => false

/-- The `\d+\.\d+\.\d+` core of the version group followed by the forced
whitespace run; see `versionThenWs`. -/
def versionDigitsThenWs (rest : Str) : Option Str :=
  let d1 := rest.takeWhile Char.isDigit
  let r1 := rest.dropWhile Char.isDigit
  if d1 = [] then none
  else
    match r1 with
    | '.' :: rest2 =>
      let d2 := rest2.takeWhile Char.isDigit
      let r2 := rest2.dropWhile Char.isDigit
      if d2 = [] then none
      else
        match r2 with
        | '.' :: rest3 =>
          let d3 := rest3.takeWhile Char.isDigit
          let r3 := rest3.dropWhile Char.isDigit
          if d3 = [] then none
          else if r3 ≠ [] ∧ r3.all isWsChar then
            some ('v' :: (d1 ++ '.' :: d2 ++ '.' :: d3))
          else none
        | _ => none
    | _ => none

/-- The greedy optional group `(?:@(v\d+\.\d+\.\d+))?` immediately followed
by the mandatory `\s+` run (up to the dash, whose position is forced):
returns the captured version string.  Greedy `\d+` runs followed by a
forced `.` make this decomposition deterministic. -/
def versionThenWs (r : Str) : Option Str :=
  match r with
  | a :: b :: rest =>
    if a = '@' ∧ b = 'v' then versionDigitsThenWs rest else none
  | _ => none

/-- The lazy scan of the name group `(.+?)`: starting from the shortest
candidate name (the accumulator, reversed), first try the greedy optional
version group, then the bare `\s+` run; otherwise grow the name by one
character — `.` refuses the line terminators `\n` and `\r`. -/
def scanName (acc : Str) (r : Str) : Option (Str × Option Str) :=
  match versionThenWs r with
  | some vs => some (acc.reverse, some vs)
  | none =>
    if r ≠ [] ∧ r.all isWsChar then some (acc.reverse, none)
    else
      match r with
      | [] => none
      | c :: cs =>
        if c = '\n' ∨ c = '\r' then none
        else scanName (c :: acc) cs

/-- Anchored match of the section-header regex
`^## (.+?)(?:@(v\d+\.\d+\.\d+))?\s+(?:--|—)\s+(\d{4}-\d{2}-\d{2})$`
from `ParseChangelogStructured`, decomposed from the right: the date group
has fixed width and is anchored at the end, the `\s+` before it is forced to
be the maximal whitespace run (its left neighbour is a dash character), the
dash alternative is determined by that neighbour, and the remaining
`(.+?)(?:@(v…))?\s+` is resolved by the lazy scan.  Returns
(name, optional version string, date). -/
def sectionLineMatch (line : Str) : Option (Str × Option Str × Str) :=
  match line with
  | '#' :: '#' :: ' ' :: r =>
    let rev := r.reverse
    let date := (rev.take 10).reverse
    if rev.length < 10 ∨ ¬ dateMatch date = true then none
    else
      let rest1 := rev.drop 10
      let ws2 := rest1.takeWhile isWsChar
      let rest2 := rest1.dropWhile isWsChar
      if ws2 = [] then none
      else
        let afterDash : Option Str :=
          match rest2 with
          | c :: rest3 =>
            if c = emDash then some rest3
            else
              match rest2 with
              | '-' :: '-' :: rest4 => some rest4
              | _ => none
          | [] => none
        match afterDash with
        | none => none
        | some rest3 =>
          match rest3.reverse with
          | [] => none
          | c :: cs =>
            if c = '\n' ∨ c = '\r' then none
            else
              match scanName [c] cs with
              | some (nm, vs) => some (nm, vs, date)
              | none => none
  | _ => none

/-- Anchored match of the category-header regex `^### (\w+)$`. -/
def typeLineMatch (line : Str) : Option Str :=
  match line with
  | '#' :: '#' :: '#' :: ' ' :: r =>
    if r ≠ [] ∧ r.all isWordChar then some r else none
  | _ => none

/-- Anchored match of the entry regex `^- (.+)$` (`.` refuses the line
terminators `\n` and `\r`). -/
def entryLineMatch (line : Str) : Option Str :=
  match line with
  | '-' :: ' ' :: r =>
    if r ≠ [] ∧ r.all (fun c => !(c == '\n' || c == '\r')) then some r else none
  | _ => none

/-- The category map with no keys. -/
def emptyEntries : CommitType → List Str := fun _ => []

/-- `cur->entries[t].insert(e)` on the functional category map. -/
def insertEntry (es : CommitType → List Str) (t : CommitType) (e : Str) :
    CommitType → List Str :=
  fun u => if u = t then insertSet e (es u) else es u

/-- One line of the `ParseChangelogStructured` loop.  The state is the
sections parsed so far (newest first — the C++ code appends to the back and
mutates the back element; the reversed list makes that the head) plus the
current-category cursor.  A section header pushes a fresh section and
resets the cursor; a category header sets the cursor (to `none` for an
unknown name); an entry line is captured only when both a section and a
cursor exist, re-deriving the breaking flag from the `!:` marker.  A
version suffix that `SemanticVersion::Parse` rejects (out-of-`int`-range
component) is a thrown exception, modelled as `Except.error`. -/
def parseLine (st : List ParsedSection × Option CommitType) (line : Str) :
    Except Str (List ParsedSection × Option CommitType) :=
  match sectionLineMatch line with
  | some (nm, vs, dt) =>
    match vs with
    | some vstr =>
      match semverParse vstr with
      | some v => .ok (⟨nm, some v, dt, emptyEntries, false⟩ :: st.1, none)
      | none => .error ("Invalid version string: ".data ++ vstr)
    | none => .ok (⟨nm, none, dt, emptyEntries, false⟩ :: st.1, none)
  | none =>
    match typeLineMatch line with
    | some w => .ok (st.1, tokenToCommitType (w.map asciiLower))
    | none =>
      match entryLineMatch line with
      | some txt =>
        match st.2, st.1 with
        | some t, sec :: rest =>
          .ok (⟨sec.name, sec.version, sec.date,
                insertEntry sec.entries t txt,
                sec.has_breaking_change ||
                  containsSub txt ('!' :: ':' :: [])⟩ :: rest, st.2)
        | _, _ => .ok st
      | none => .ok st

/-- `Changelog::ParseChangelogStructured` from `changelog.cc`: run the
line loop over the `getline` decomposition and return the sections in
reading order. -/
def parseChangelogStructured (content : Str) :
    Except Str (List ParsedSection) :=
  match (getLines content).foldlM parseLine ([], none) with
  | .ok st => .ok st.1.reverse
  | .error e => .error e

/-- The lines of one `### <Type>` block of the rendered output. -/
def typeBlockLines (data : SectionData) (t : CommitType) : List Str :=
  if (data.entries t).isEmpty then []
  else
    ('#' :: '#' :: '#' :: ' ' :: commitTypeName t) :: [] ::
      (((data.entries t).map fun log => '-' :: ' ' :: log) ++ [[]])

/-- The lines of one rendered section. -/
def sectionLines (nd : Str × SectionData) (date : Str) : List Str :=
  sectionHeaderLine nd.1 date :: [] ::
    allCommitTypes.foldr (fun t acc => typeBlockLines nd.2 t ++ acc) []

/-- The lines of the whole rendered changelog body. -/
def changelogLines (sections : List (Str × SectionData)) (date : Str) :
    List Str :=
  sections.foldr (fun nd acc => sectionLines nd date ++ acc) []

theorem renderLogs_eq (logs : List Str) :
    renderLogs logs = joinLines (logs.map fun log => '-' :: ' ' :: log) := by
  have aux : ∀ (ls : List Str) (acc : Str),
      ls.foldl (fun acc log => acc ++ ('-' :: ' ' :: (log ++ ['\n']))) acc =
        acc ++ joinLines (ls.map fun log => '-' :: ' ' :: log) := by
    intro ls
    induction ls with
    | nil => intro acc; simp [joinLines]
    | cons log ls ih =>
      intro acc
      rw [List.foldl_cons, ih]
      show acc ++ ('-' :: ' ' :: (log ++ ['\n'])) ++ _ =
        acc ++ (('-' :: ' ' :: log) ++ '\n' :: joinLines (ls.map fun log => '-' :: ' ' :: log))
      simp
  rw [renderLogs, aux]
  rfl

theorem renderTypeBlock_eq (data : SectionData) (t : CommitType) :
    renderTypeBlock data t = joinLines (typeBlockLines data t) := by
  unfold renderTypeBlock typeBlockLines
  by_cases h : (data.entries t).isEmpty
  · rw [if_pos h, if_pos h]; rfl
  · rw [if_neg h, if_neg h]
    show _ = _ ++ '\n' :: ([] ++ '\n' :: joinLines (((data.entries t).map fun log => '-' :: ' ' :: log) ++ [[]]))
    rw [joinLines_append, renderLogs_eq]
    show ('#' :: '#' :: '#' :: ' ' :: (commitTypeName t ++ '\n' :: '\n' :: [])) ++
        joinLines ((data.entries t).map fun log => '-' :: ' ' :: log) ++ ['\n'] = _
    simp [joinLines]

theorem renderSection_eq (date : Str) (nd : Str × SectionData) :
    renderSection date nd = joinLines (sectionLines nd date) := by
  have aux : ∀ (ts : List CommitType) (acc : Str),
      ts.foldl (fun acc t => acc ++ renderTypeBlock nd.2 t) acc =
        acc ++ joinLines (ts.foldr (fun t a => typeBlockLines nd.2 t ++ a) []) := by
    intro ts
    induction ts with
    | nil => intro acc; simp [joinLines]
    | cons t ts ih =>
      intro acc
      rw [List.foldl_cons, ih, List.foldr_cons, joinLines_append,
        renderTypeBlock_eq]
      simp
  unfold renderSection sectionLines
  rw [aux]
  show _ = _ ++ '\n' :: ([] ++ '\n' :: joinLines (allCommitTypes.foldr (fun t a => typeBlockLines nd.2 t ++ a) []))
  simp

theorem formatChangelog_eq (sections : List (Str × SectionData)) (date : Str) :
    formatChangelog sections date = joinLines (changelogLines sections date) := by
  have aux : ∀ (ss : List (Str × SectionData)) (acc : Str),
      ss.foldl (fun acc nd => acc ++ renderSection date nd) acc =
        acc ++ joinLines (ss.foldr (fun nd a => sectionLines nd date ++ a) []) := by
    intro ss
    induction ss with
    | nil => intro acc; simp [joinLines]
    | cons nd ss ih =>
      intro acc
      rw [List.foldl_cons, ih, List.foldr_cons, joinLines_append,
        renderSection_eq]
      simp
  unfold formatChangelog changelogLines
  rw [aux]
  rfl

/-- Well-formed section name for the round trip: non-empty, no line
terminator (single line), and no `@` (so the header parses back without a
spurious version suffix). -/
def wfName (name : Str) : Bool :=
  !name.isEmpty && name.all fun c => !(c == '\n' || c == '\r' || c == '@')

/-- Well-formed entry text for the round trip: non-empty and free of line
terminators. -/
def wfEntry (e : Str) : Bool :=
  !e.isEmpty && e.all fun c => !(c == '\n' || c == '\r')

/-- Well-formed section: name and every entry of every category. -/
def wfSection (nd : Str × SectionData) : Bool :=
  wfName nd.1 && allCommitTypes.all fun t => (nd.2.entries t).all wfEntry

def wfSections (sections : List (Str × SectionData)) : Bool :=
  sections.all wfSection

theorem wfName_spec {name : Str} (h : wfName name = true) :
    name ≠ [] ∧ ∀ c ∈ name, c ≠ '\n' ∧ c ≠ '\r' ∧ c ≠ '@' := by
  unfold wfName at h
  rw [Bool.and_eq_true, List.all_eq_true] at h
  constructor
  · intro hnil
    rw [hnil] at h
    exact absurd h.1 (by simp)
  · intro c hc
    have := h.2 c hc
    simp only [Bool.not_eq_true', Bool.or_eq_false_iff, beq_eq_false_iff_ne] at this
    exact ⟨this.1.1, this.1.2, this.2⟩

theorem wfEntry_spec {e : Str} (h : wfEntry e = true) :
    e ≠ [] ∧ ∀ c ∈ e, c ≠ '\n' ∧ c ≠ '\r' := by
  unfold wfEntry at h
  rw [Bool.and_eq_true, List.all_eq_true] at h
  constructor
  · intro hnil
    rw [hnil] at h
    exact absurd h.1 (by simp)
  · intro c hc
    have := h.2 c hc
    simp only [Bool.not_eq_true', Bool.or_eq_false_iff, beq_eq_false_iff_ne] at this
    exact this

theorem dateMatch_spec {date : Str} (h : dateMatch date = true) :
    date.length = 10 ∧ ∀ c ∈ date, c.isDigit ∨ c = '-' := by
  unfold dateMatch at h
  split at h
  · next a b c d e f g i j k =>
    simp only [Bool.and_eq_true, beq_iff_eq] at h
    obtain ⟨⟨⟨⟨⟨⟨⟨⟨⟨h1, h2⟩, h3⟩, h4⟩, h5⟩, h6⟩, h7⟩, h8⟩, h9⟩, h10⟩ := h
    refine ⟨rfl, ?_⟩
    intro x hx
    simp only [List.mem_cons, List.not_mem_nil, or_false] at hx
    rcases hx with rfl | rfl | rfl | rfl | rfl | rfl | rfl | rfl | rfl | rfl
    all_goals first
      | exact Or.inl (by assumption)
      | exact Or.inr (by assumption)
  · exact absurd h (by simp)

theorem no_newline_typeBlockLines {data : SectionData} {t : CommitType}
    (hwf : (data.entries t).all wfEntry = true) :
    ∀ l ∈ typeBlockLines data t, '\n' ∉ l := by
  intro l hl
  unfold typeBlockLines at hl
  split at hl
  · exact absurd hl (List.not_mem_nil l)
  · simp only [List.mem_cons, List.mem_append, List.mem_map,
      List.mem_singleton, List.not_mem_nil, or_false] at hl
    rcases hl with rfl | rfl | ⟨log, hlog, rfl⟩ | rfl
    · intro hn
      simp only [List.mem_cons] at hn
      rcases hn with h | h | h | h | h
      · exact absurd h (by decide)
      · exact absurd h (by decide)
      · exact absurd h (by decide)
      · exact absurd h (by decide)
      · revert h
        cases t <;> decide
    · exact List.not_mem_nil _
    · rw [List.all_eq_true] at hwf
      have := wfEntry_spec (hwf log hlog)
      intro hn
      simp only [List.mem_cons] at hn
      rcases hn with h | h | h
      · exact absurd h (by decide)
      · exact absurd h (by decide)
      · exact absurd rfl (this.2 '\n' h).1
    · exact List.not_mem_nil _

theorem no_newline_sectionLines {nd : Str × SectionData} {date : Str}
    (hwf : wfSection nd = true) (hd : dateMatch date = true) :
    ∀ l ∈ sectionLines nd date, '\n' ∉ l := by
  unfold wfSection at hwf
  rw [Bool.and_eq_true] at hwf
  obtain ⟨hn, hall⟩ := hwf
  intro l hl
  unfold sectionLines at hl
  simp only [List.mem_cons] at hl
  rcases hl with rfl | rfl | hl
  · unfold sectionHeaderLine
    intro hmem
    simp only [List.mem_cons, List.mem_append] at hmem
    rcases hmem with h | h | h | h | h | h | h | h
    · exact absurd h (by decide)
    · exact absurd h (by decide)
    · exact absurd h (by decide)
    · exact absurd rfl ((wfName_spec hn).2 '\n' h).1
    · exact absurd h (by decide)
    · exact absurd h (by decide)
    · exact absurd h (by decide)
    · rcases (dateMatch_spec hd).2 '\n' h with hdg | hdg
      · exact absurd hdg (by decide)
      · exact absurd hdg (by decide)
  · exact List.not_mem_nil _
  · have main : ∀ (ts : List CommitType),
        (∀ t ∈ ts, (nd.2.entries t).all wfEntry = true) →
        l ∈ ts.foldr (fun t acc => typeBlockLines nd.2 t ++ acc) [] → '\n' ∉ l := by
      intro ts
      induction ts with
      | nil => intro _ hmem; exact absurd hmem (List.not_mem_nil l)
      | cons t ts ih =>
        intro hts hmem
        rw [List.foldr_cons, List.mem_append] at hmem
        rcases hmem with hmem | hmem
        · exact no_newline_typeBlockLines (hts t (List.mem_cons_self t ts)) l hmem
        · exact ih (fun u hu => hts u (List.mem_cons_of_mem t hu)) hmem
    rw [List.all_eq_true] at hall
    exact main allCommitTypes hall hl

theorem no_newline_changelogLines {sections : List (Str × SectionData)}
    {date : Str} (hwf : wfSections sections = true)
    (hd : dateMatch date = true) :
    ∀ l ∈ changelogLines sections date, '\n' ∉ l := by
  unfold wfSections at hwf
  rw [List.all_eq_true] at hwf
  intro l hl
  unfold changelogLines at hl
  induction sections with
  | nil => exact absurd hl (List.not_mem_nil l)
  | cons nd ss ih =>
    rw [List.foldr_cons, List.mem_append] at hl
    rcases hl with hl | hl
    · exact no_newline_sectionLines (hwf nd (List.mem_cons_self nd ss)) hd l hl
    · exact ih (fun x hx => hwf x (List.mem_cons_of_mem nd hx)) hl

/-- The version group can only fire at an `@`. -/
theorem versionThenWs_no_at {r : Str} (h : '@' ∉ r) : versionThenWs r = none := by
  match r with
  | [] => rfl
  | [a] => rfl
  | a :: b :: rest =>
    have ha : a ≠ '@' := fun hh => h (hh ▸ List.mem_cons_self a (b :: rest))
    show (if a = '@' ∧ b = 'v' then versionDigitsThenWs rest else none) = none
    rw [if_neg (fun hh => ha hh.1)]

/-- The lazy name scan succeeds on any `@`-free, terminator-free text
ending in a space, reporting no version group. -/
theorem scanName_success :
    ∀ (r : Str), r ≠ [] → '@' ∉ r → (∀ c ∈ r, c ≠ '\n' ∧ c ≠ '\r') →
      r.getLast? = some ' ' →
      ∀ acc, ∃ nm, scanName acc r = some (nm, none) := by
  intro r
  induction r with
  | nil => intro h; exact absurd rfl h
  | cons c cs ih =>
    intro _ hat hterm hlast acc
    have hvn : versionThenWs (c :: cs) = none := versionThenWs_no_at hat
    by_cases hws : ((c :: cs : Str) ≠ [] ∧ (c :: cs).all isWsChar)
    · refine ⟨acc.reverse, ?_⟩
      rw [scanName, hvn, if_pos hws]
    · cases hcs : cs with
      | nil =>
        exfalso
        apply hws
        subst hcs
        have hsp : c = ' ' := by
          simp only [List.getLast?_singleton, Option.some.injEq] at hlast
          exact hlast
        subst hsp
        exact ⟨by simp, by decide⟩
      | cons d ds =>
        subst hcs
        have hterm_c := hterm c (List.mem_cons_self c (d :: ds))
        obtain ⟨nm, hnm⟩ := ih (by simp)
          (fun hm => hat (List.mem_cons_of_mem c hm))
          (fun x hx => hterm x (List.mem_cons_of_mem c hx))
          (by rw [← hlast]; exact List.getLast?_cons_cons.symm) (c :: acc)
        refine ⟨nm, ?_⟩
        rw [scanName, hvn, if_neg hws]
        show (if c = '\n' ∨ c = '\r' then none
          else scanName (c :: acc) (d :: ds)) = some (nm, none)
        rw [if_neg (by
          rintro (h | h)
          · exact hterm_c.1 h
          · exact hterm_c.2 h)]
        exact hnm

/-- A well-formed rendered section header is recognized by the section
regex, with no version group. -/
theorem sectionHeader_match (name date : Str) (hn : wfName name = true)
    (hd : dateMatch date = true) :
    ∃ nm dt, sectionLineMatch (sectionHeaderLine name date) =
      some (nm, none, dt) := by
  obtain ⟨hne, hchars⟩ := wfName_spec hn
  obtain ⟨hlen, _⟩ := dateMatch_spec hd
  unfold sectionHeaderLine
  simp only [sectionLineMatch]
  have hrev : (name ++ ' ' :: emDash :: ' ' :: date).reverse =
      date.reverse ++ ' ' :: emDash :: ' ' :: name.reverse := by
    simp
  rw [hrev]
  have hlen10 : date.reverse.length = 10 := by simp [hlen]
  have htake : (date.reverse ++ ' ' :: emDash :: ' ' :: name.reverse).take 10 =
      date.reverse := by
    rw [← hlen10, List.take_left]
  have hdrop : (date.reverse ++ ' ' :: emDash :: ' ' :: name.reverse).drop 10 =
      ' ' :: emDash :: ' ' :: name.reverse := by
    rw [← hlen10, List.drop_left]
  rw [htake, hdrop]
  simp only [List.reverse_reverse]
  rw [if_neg (by
    push_neg
    refine ⟨?_, hd⟩
    simp only [List.length_append, List.length_cons, hlen10]
    omega)]
  have htw : (' ' :: emDash :: ' ' :: name.reverse).takeWhile isWsChar =
      [' '] := by
    rw [List.takeWhile_cons_of_pos (by decide),
      List.takeWhile_cons_of_neg (by decide)]
  have hdw : (' ' :: emDash :: ' ' :: name.reverse).dropWhile isWsChar =
      emDash :: ' ' :: name.reverse := by
    rw [List.dropWhile_cons_of_pos (by decide),
      List.dropWhile_cons_of_neg (by decide)]
  rw [htw, hdw]
  rw [if_neg (by simp)]
  simp only [if_true]
  have hrev3 : (' ' :: name.reverse).reverse = name ++ [' '] := by simp
  rw [hrev3]
  cases hname : name with
  | nil => exact absurd hname hne
  | cons n0 nrest =>
    subst hname
    show ∃ nm dt, (if n0 = '\n' ∨ n0 = '\r' then none
      else match scanName [n0] (nrest ++ [' ']) with
        | some (nm, vs) => some (nm, vs, date)
        | none => none) = some (nm, none, dt)
    have hn0 := hchars n0 (List.mem_cons_self n0 nrest)
    rw [if_neg (by
      rintro (h | h)
      · exact hn0.1 h
      · exact hn0.2.1 h)]
    obtain ⟨nm, hnm⟩ := scanName_success (nrest ++ [' ']) (by simp)
      (by
        rw [List.mem_append]
        rintro (h | h)
        · exact (hchars '@' (List.mem_cons_of_mem n0 h)).2.2 rfl
        · simp at h)
      (by
        intro x hx
        rw [List.mem_append] at hx
        rcases hx with h | h
        · have := hchars x (List.mem_cons_of_mem n0 h)
          exact ⟨this.1, this.2.1⟩
        · simp only [List.mem_singleton] at h
          subst h
          exact ⟨by decide, by decide⟩)
      (List.getLast?_concat nrest) [n0]
    rw [hnm]
    exact ⟨nm, date, rfl⟩

/-- A blank line matches none of the three patterns. -/
theorem parseLine_blank (st : List ParsedSection × Option CommitType) :
    parseLine st [] = .ok st := rfl

/-- A well-formed section-header line pushes a fresh section (with no
version) and resets the cursor. -/
theorem parseLine_header (st : List ParsedSection × Option CommitType)
    (name date : Str) (hn : wfName name = true) (hd : dateMatch date = true) :
    ∃ nm dt, parseLine st (sectionHeaderLine name date) =
      .ok (⟨nm, none, dt, emptyEntries, false⟩ :: st.1, none) := by
  obtain ⟨nm, dt, hm⟩ := sectionHeader_match name date hn hd
  refine ⟨nm, dt, ?_⟩
  simp only [parseLine, hm]

/-- A rendered category header sets the cursor to its category. -/
theorem parseLine_typeHeader (st : List ParsedSection × Option CommitType)
    (t : CommitType) :
    parseLine st ('#' :: '#' :: '#' :: ' ' :: commitTypeName t) =
      .ok (st.1, some t) := by
  cases t <;> rfl

/-- A rendered entry line, with a section and cursor present, inserts the
captured text into the current category of the newest section and ors the
`!:` heuristic into its breaking flag. -/
theorem parseLine_entry (sec : ParsedSection) (rest : List ParsedSection)
    (t : CommitType) (e : Str) (he : wfEntry e = true) :
    parseLine (sec :: rest, some t) ('-' :: ' ' :: e) =
      .ok (⟨sec.name, sec.version, sec.date, insertEntry sec.entries t e,
        sec.has_breaking_change || containsSub e ('!' :: ':' :: [])⟩ :: rest,
        some t) := by
  rw [wfEntry, Bool.and_eq_true] at he
  obtain ⟨hne, hall⟩ := he
  have hs : sectionLineMatch ('-' :: ' ' :: e) = none := rfl
  have ht : typeLineMatch ('-' :: ' ' :: e) = none := rfl
  have hmatch : entryLineMatch ('-' :: ' ' :: e) = some e := by
    simp only [entryLineMatch]
    rw [if_pos ⟨by simpa using hne, hall⟩]
  simp only [parseLine, hs, ht, hmatch]

theorem exceptOk_bind {ε α β : Type} (x : α) (f : α → Except ε β) :
    (Except.ok x >>= f) = f x := rfl

theorem mem_insertEntry (es : CommitType → List Str) (t u : CommitType)
    (x e : Str) :
    e ∈ insertEntry es t x u ↔ (u = t ∧ e = x) ∨ e ∈ es u := by
  unfold insertEntry
  split_ifs with h
  · subst h
    rw [mem_insertSet]
    tauto
  · constructor
    · intro hm
      exact Or.inr hm
    · rintro (⟨rfl, _⟩ | hm)
      · exact absurd rfl h
      · exact hm

/-- Folding the rendered entry lines of one category inserts exactly those
entries into that category of the newest section. -/
theorem fold_entryLines (t : CommitType) :
    ∀ (logs : List Str), logs.all wfEntry = true →
    ∀ (sec : ParsedSection) (rest : List ParsedSection),
      ∃ sec' : ParsedSection,
        (logs.map fun log => '-' :: ' ' :: log).foldlM parseLine
            (sec :: rest, some t) = .ok (sec' :: rest, some t) ∧
        ∀ u e, e ∈ sec'.entries u ↔
          e ∈ sec.entries u ∨ (u = t ∧ e ∈ logs) := by
  intro logs
  induction logs with
  | nil =>
    intro _ sec rest
    refine ⟨sec, by simp; rfl, ?_⟩
    intro u e
    simp
  | cons log logs ih =>
    intro hwf sec rest
    rw [List.all_cons, Bool.and_eq_true] at hwf
    obtain ⟨hw1, hwrest⟩ := hwf
    rw [List.map_cons, List.foldlM_cons, parseLine_entry sec rest t log hw1,
      exceptOk_bind]
    obtain ⟨sec', hfold, hmem⟩ := ih hwrest
      ⟨sec.name, sec.version, sec.date, insertEntry sec.entries t log,
        sec.has_breaking_change || containsSub log ('!' :: ':' :: [])⟩ rest
    refine ⟨sec', hfold, ?_⟩
    intro u e
    rw [hmem u e]
    have hproj : (⟨sec.name, sec.version, sec.date,
        insertEntry sec.entries t log,
        sec.has_breaking_change || containsSub log ('!' :: ':' :: [])⟩ :
          ParsedSection).entries = insertEntry sec.entries t log := rfl
    rw [hproj, mem_insertEntry]
    simp only [List.mem_cons]
    constructor
    · rintro ((⟨rfl, rfl⟩ | h) | ⟨rfl, h⟩)
      · exact Or.inr ⟨rfl, Or.inl rfl⟩
      · exact Or.inl h
      · exact Or.inr ⟨rfl, Or.inr h⟩
    · rintro (h | ⟨rfl, rfl | h⟩)
      · exact Or.inl (Or.inr h)
      · exact Or.inl (Or.inl ⟨rfl, rfl⟩)
      · exact Or.inr ⟨rfl, h⟩

/-- Folding one rendered category block adds exactly that category's
entries to the newest section and leaves the cursor on that category (or
unchanged when the block is empty). -/
theorem fold_typeBlock (data : SectionData) (t : CommitType)
    (hwf : (data.entries t).all wfEntry = true) :
    ∀ (sec : ParsedSection) (rest : List ParsedSection)
      (curTy : Option CommitType),
      ∃ sec' ty',
        (typeBlockLines data t).foldlM parseLine (sec :: rest, curTy) =
          .ok (sec' :: rest, ty') ∧
        ∀ u e, e ∈ sec'.entries u ↔
          e ∈ sec.entries u ∨ (u = t ∧ e ∈ data.entries t) := by
  intro sec rest curTy
  unfold typeBlockLines
  by_cases hemp : (data.entries t).isEmpty
  · rw [if_pos hemp]
    refine ⟨sec, curTy, by simp; rfl, ?_⟩
    intro u e
    have hnil : data.entries t = [] := by
      cases h : data.entries t with
      | nil => rfl
      | cons a l => rw [h] at hemp; exact absurd hemp (by simp)
    simp [hnil]
  · rw [if_neg hemp]
    rw [List.foldlM_cons, parseLine_typeHeader (sec :: rest, curTy) t,
      exceptOk_bind, List.foldlM_cons, parseLine_blank, exceptOk_bind,
      List.foldlM_append]
    obtain ⟨sec', hfold, hmem⟩ := fold_entryLines t (data.entries t) hwf sec rest
    rw [hfold, exceptOk_bind, List.foldlM_cons, parseLine_blank,
      exceptOk_bind, List.foldlM_nil]
    exact ⟨sec', some t, rfl, hmem⟩

/-- Folding the rendered category blocks of a list of categories. -/
theorem fold_typesBlocks (data : SectionData) :
    ∀ (ts : List CommitType),
      (∀ t ∈ ts, (data.entries t).all wfEntry = true) →
    ∀ (sec : ParsedSection) (rest : List ParsedSection)
      (curTy : Option CommitType),
      ∃ sec' ty',
        (ts.foldr (fun t acc => typeBlockLines data t ++ acc) []).foldlM
            parseLine (sec :: rest, curTy) = .ok (sec' :: rest, ty') ∧
        ∀ u e, e ∈ sec'.entries u ↔
          e ∈ sec.entries u ∨ (u ∈ ts ∧ e ∈ data.entries u) := by
  intro ts
  induction ts with
  | nil =>
    intro _ sec rest curTy
    refine ⟨sec, curTy, by simp; rfl, ?_⟩
    intro u e
    simp
  | cons t ts ih =>
    intro hts sec rest curTy
    rw [List.foldr_cons, List.foldlM_append]
    obtain ⟨sec1, ty1, hfold1, hmem1⟩ :=
      fold_typeBlock data t (hts t (List.mem_cons_self t ts)) sec rest curTy
    rw [hfold1, exceptOk_bind]
    obtain ⟨sec', ty', hfold2, hmem2⟩ :=
      ih (fun u hu => hts u (List.mem_cons_of_mem t hu)) sec1 rest ty1
    refine ⟨sec', ty', hfold2, ?_⟩
    intro u e
    rw [hmem2 u e, hmem1 u e]
    constructor
    · rintro ((h | ⟨rfl, h⟩) | ⟨hu, h⟩)
      · exact Or.inl h
      · exact Or.inr ⟨List.mem_cons_self u ts, h⟩
      · exact Or.inr ⟨List.mem_cons_of_mem t hu, h⟩
    · rintro (h | ⟨hu, h⟩)
      · exact Or.inl (Or.inl h)
      · rcases List.mem_cons.mp hu with rfl | hu'
        · exact Or.inl (Or.inr ⟨rfl, h⟩)
        · exact Or.inr ⟨hu', h⟩

/-- Folding the lines of one rendered section pushes exactly one new
section whose categories hold exactly the rendered entries. -/
theorem fold_section (nd : Str × SectionData) (date : Str)
    (hwf : wfSection nd = true) (hd : dateMatch date = true) :
    ∀ st : List ParsedSection × Option CommitType,
      ∃ sec' ty',
        (sectionLines nd date).foldlM parseLine st = .ok (sec' :: st.1, ty') ∧
        ∀ u e, e ∈ sec'.entries u ↔ e ∈ nd.2.entries u := by
  intro st
  rw [wfSection, Bool.and_eq_true, List.all_eq_true] at hwf
  obtain ⟨hn, hall⟩ := hwf
  unfold sectionLines
  rw [List.foldlM_cons]
  obtain ⟨nm, dt, hh⟩ := parseLine_header st nd.1 date hn hd
  rw [hh, exceptOk_bind, List.foldlM_cons, parseLine_blank, exceptOk_bind]
  obtain ⟨sec', ty', hfold, hmem⟩ := fold_typesBlocks nd.2 allCommitTypes hall
    ⟨nm, none, dt, emptyEntries, false⟩ st.1 none
  refine ⟨sec', ty', hfold, ?_⟩
  intro u e
  rw [hmem u e]
  constructor
  · rintro (h | ⟨_, h⟩)
    · exact absurd h (by simp [emptyEntries])
    · exact h
  · intro h
    exact Or.inr ⟨mem_allCommitTypes u, h⟩

theorem changelogLines_cons (nd : Str × SectionData)
    (ss : List (Str × SectionData)) (date : Str) :
    changelogLines (nd :: ss) date =
      sectionLines nd date ++ changelogLines ss date := rfl

/-- Folding the full rendered body produces, in front of the prior state,
exactly one parsed section per input section, in reverse push order, each
holding exactly the entries of its source section. -/
theorem fold_sections (date : Str) :
    ∀ (secs : List (Str × SectionData)), wfSections secs = true →
      dateMatch date = true →
    ∀ st : List ParsedSection × Option CommitType,
      ∃ (ps : List ParsedSection) (ty' : Option CommitType),
        (changelogLines secs date).foldlM parseLine st =
          .ok (ps ++ st.1, ty') ∧
        ps.length = secs.length ∧
        ∀ i p s, ps.reverse.get? i = some p → secs.get? i = some s →
          ∀ u e, e ∈ p.entries u ↔ e ∈ s.2.entries u := by
  intro secs
  induction secs with
  | nil =>
    intro _ _ st
    refine ⟨[], st.2, by simp [changelogLines]; rfl, rfl, ?_⟩
    intro i p s hp
    simp at hp
  | cons nd ss ih =>
    intro hwf hd st
    rw [wfSections, List.all_cons, Bool.and_eq_true] at hwf
    obtain ⟨h1, hrest⟩ := hwf
    rw [changelogLines_cons, List.foldlM_append]
    obtain ⟨sec', ty1, hf1, hm1⟩ := fold_section nd date h1 hd st
    rw [hf1, exceptOk_bind]
    obtain ⟨ps', ty', hf2, hlen, hidx⟩ := ih hrest hd (sec' :: st.1, ty1)
    refine ⟨ps' ++ [sec'], ty', ?_, ?_, ?_⟩
    · rw [hf2]
      simp
    · simp [hlen]
    · intro i p s hp hs
      rw [List.reverse_append] at hp
      cases i with
      | zero =>
        simp only [List.reverse_singleton, List.singleton_append,
          List.get?_cons_zero, Option.some.injEq] at hp
        simp only [List.get?_cons_zero, Option.some.injEq] at hs
        subst hp
        subst hs
        exact hm1
      | succ i =>
        simp only [List.reverse_singleton, List.singleton_append,
          List.get?_cons_succ] at hp
        simp only [List.get?_cons_succ] at hs
        exact hidx i p s hp hs

/-- **C4**.  Round trip: parsing the rendered markdown of well-formed
sections (names non-empty, single-line, `@`-free; entries non-empty and
single-line; a `\d{4}-\d{2}-\d{2}` date) succeeds and reproduces, per
section in order, exactly the same (category, entry string) memberships as
the input sections. -/
theorem c4_render_parse_round_trip (secs : List (Str × SectionData))
    (date : Str) (hwf : wfSections secs = true) (hd : dateMatch date = true) :
    ∃ parsed, parseChangelogStructured (formatChangelog secs date) =
        .ok parsed ∧
      parsed.length = secs.length ∧
      ∀ i p s, parsed.get? i = some p → secs.get? i = some s →
        ∀ t e, e ∈ p.entries t ↔ e ∈ s.2.entries t := by
  have hlines : getLines (formatChangelog secs date) =
      changelogLines secs date := by
    rw [formatChangelog_eq]
    have h := getLines_joinLines_append (changelogLines secs date) []
      (no_newline_changelogLines hwf hd)
    rw [show getLines ([] : Str) = [] from rfl] at h
    simpa using h
  obtain ⟨ps, ty, hfold, hlen, hidx⟩ := fold_sections date secs hwf hd ([], none)
  refine ⟨ps.reverse, ?_, by simp [hlen], ?_⟩
  · unfold parseChangelogStructured
    rw [hlines, hfold]
    simp
  · intro i p s hp hs t e
    exact hidx i p s hp hs t e

/-- A concrete well-formed section list for closed instances. -/
def sampleData : SectionData :=
  ⟨fun t =>
    match t with
    | .kFeat => ["feat: a by A in [#abc123](u/commit/f)".data]
    | .kFix => ["fix: b by B in [#def456](u/commit/g)".data]
    | _ => [], false⟩

def sampleSections : List (Str × SectionData) :=
  [("app".data, sampleData)]

/-- Closed instance of `c4_render_parse_round_trip` at a concrete section
list with a Feat and a Fix entry. -/
theorem c4_witness :
    wfSections sampleSections = true ∧ dateMatch "2025-10-11".data = true ∧
    (∃ parsed,
      parseChangelogStructured
          (formatChangelog sampleSections "2025-10-11".data) = .ok parsed ∧
      parsed.length = sampleSections.length ∧
      ∀ i p s, parsed.get? i = some p → sampleSections.get? i = some s →
        ∀ t e, e ∈ p.entries t ↔ e ∈ s.2.entries t) :=
  ⟨by decide, by decide,
   c4_render_parse_round_trip sampleSections "2025-10-11".data
     (by decide) (by decide)⟩

/-- **C1**.  Global deduplication: `FilterNew` keeps per category exactly
the current entries absent from the flattened history (union over all
sections and categories); an entry recorded anywhere in history under any
category survives in no category; and against the parse of the pipeline's
own rendered output every emitted entry is excluded — a second run keeps
nothing. -/
theorem c1_global_dedup_idempotent :
    (∀ (current : SectionData) (sections : List ParsedSection)
        (t : CommitType) (e : Str),
      e ∈ (filterNewEntries current (flattenEntries sections)).entries t ↔
        e ∈ current.entries t ∧ ¬ ∃ sec ∈ sections, ∃ u, e ∈ sec.entries u) ∧
    (∀ (current : SectionData) (sections : List ParsedSection)
        (sec : ParsedSection) (u t : CommitType) (e : Str),
      sec ∈ sections → e ∈ sec.entries u →
      e ∉ (filterNewEntries current (flattenEntries sections)).entries t) ∧
    (∀ (secs : List (Str × SectionData)) (date : Str),
      wfSections secs = true → dateMatch date = true →
      ∃ parsed,
        parseChangelogStructured (formatChangelog secs date) = .ok parsed ∧
        ∀ nd ∈ secs, ∀ t : CommitType,
          (filterNewEntries nd.2 (flattenEntries parsed)).entries t = []) := by
  have hmain : ∀ (current : SectionData) (sections : List ParsedSection)
      (t : CommitType) (e : Str),
      e ∈ (filterNewEntries current (flattenEntries sections)).entries t ↔
        e ∈ current.entries t ∧ ¬ ∃ sec ∈ sections, ∃ u, e ∈ sec.entries u := by
    intro current sections t e
    rw [mem_filterNewEntries]
    constructor
    · rintro ⟨h1, h2⟩
      exact ⟨h1, fun hex => h2 ((mem_flattenEntries sections e).mpr hex)⟩
    · rintro ⟨h1, h2⟩
      exact ⟨h1, fun hmem => h2 ((mem_flattenEntries sections e).mp hmem)⟩
  refine ⟨hmain, ?_, ?_⟩
  · intro current sections sec u t e hsec he hmem
    exact ((hmain current sections t e).mp hmem).2 ⟨sec, hsec, u, he⟩
  · intro secs date hwf hd
    have hlines : getLines (formatChangelog secs date) =
        changelogLines secs date := by
      rw [formatChangelog_eq]
      have h := getLines_joinLines_append (changelogLines secs date) []
        (no_newline_changelogLines hwf hd)
      rw [show getLines ([] : Str) = [] from rfl] at h
      simpa using h
    obtain ⟨ps, ty, hfold, hlen, hidx⟩ :=
      fold_sections date secs hwf hd ([], none)
    refine ⟨ps.reverse, ?_, ?_⟩
    · unfold parseChangelogStructured
      rw [hlines, hfold]
      simp
    · intro nd hnd t
      rw [List.eq_nil_iff_forall_not_mem]
      intro e he
      obtain ⟨hcur, hnotflat⟩ :=
        (mem_filterNewEntries nd.2 (flattenEntries ps.reverse) t e).mp he
      obtain ⟨i, hi⟩ := List.mem_iff_get?.mp hnd
      have hilen : i < ps.reverse.length := by
        rw [List.length_reverse, hlen]
        exact (List.get?_eq_some.mp hi).1
      obtain ⟨p, hp⟩ : ∃ p, ps.reverse.get? i = some p := by
        rw [List.get?_eq_get hilen]
        exact ⟨_, rfl⟩
      have hmemp : e ∈ p.entries t := (hidx i p nd hp hi t e).mpr hcur
      exact hnotflat ((mem_flattenEntries ps.reverse e).mpr
        ⟨p, List.get?_mem hp, t, hmemp⟩)

/-- Closed instance of `c1_global_dedup_idempotent`: the second-run clause
at the concrete sample sections. -/
theorem c1_witness :
    wfSections sampleSections = true ∧
    (∃ parsed,
      parseChangelogStructured
          (formatChangelog sampleSections "2025-10-11".data) = .ok parsed ∧
      ∀ nd ∈ sampleSections, ∀ t : CommitType,
        (filterNewEntries nd.2 (flattenEntries parsed)).entries t = []) :=
  ⟨by decide,
   c1_global_dedup_idempotent.2.2 sampleSections "2025-10-11".data
     (by decide) (by decide)⟩

/-- `line.find("# Changelog") == 0`: the line starts with the pattern. -/
def strStartsWith : Str → Str → Bool
  | [], _ => true
  | _ :: _, [] => false
  | p :: ps, c :: cs => p == c && strStartsWith ps cs

/-- `Changelog::ReadChangelogFile` from `changelog.cc`.  The file system is
modelled as an `Option Str`: `none` when the file cannot be opened for
reading (the function then returns the empty string), otherwise the file's
content.  The first line is dropped when it starts with `# Changelog`, and
every kept line is re-terminated with `\n`. -/
def readChangelogFile (file : Option Str) : Str :=
  match file with
  | none => []
  | some content =>
    match getLines content with
    | [] => []
    | first :: rest =>
      if strStartsWith ("# Changelog".data) first then joinLines rest
      else joinLines (first :: rest)

/-- The key set of a section's entry map (`for (const auto& [type, _] :
data.entries)` in `Generate`): the categories holding at least one entry,
in declaration order. -/
def typesPresent (data : SectionData) : List CommitType :=
  allCommitTypes.filter fun t => !(data.entries t).isEmpty

/-- The version-assignment loop of `Changelog::Generate` (lines 499–516):
the first section of a first release takes the seed directly; every other
section takes `ComputeNextVersion` of the running last version; the
section name gains an `@version` suffix and the last version advances.
Returns (versioned name, assigned version, data). -/
def assignVersions : Bool → SemanticVersion → SemanticVersion →
    List (Str × SectionData) → List (Str × SemanticVersion × SectionData)
  | _, _, _, [] => []
  | firstRelease, seed, lastV, (name, data) :: rest =>
    let newVer :=
      if firstRelease then seed
      else computeNextVersion lastV (typesPresent data) data.has_breaking_change
    (name ++ '@' :: semverToString newVer, newVer, data) ::
      assignVersions false seed newVer rest

/-- One backfilled legacy section as the `needs_backfill` branch of
`Generate` re-renders it: header with the seed version appended, then the
category blocks exactly as `FormatChangelog` writes them. -/
def renderBackfillSection (seed : SemanticVersion) (sec : ParsedSection) :
    Str :=
  (sectionHeaderLine (sec.name ++ '@' :: semverToString seed) sec.date ++
      '\n' :: '\n' :: []) ++
    allCommitTypes.foldl
      (fun acc t =>
        acc ++ renderTypeBlock ⟨sec.entries, sec.has_breaking_change⟩ t) []

/-- The whole re-rendered backfill content. -/
def backfillContent (seed : SemanticVersion) (sections : List ParsedSection) :
    Str :=
  sections.foldl (fun acc sec => acc ++ renderBackfillSection seed sec) []

/-- `Changelog::Generate` from `changelog.cc`, with its collaborators at
the boundary: `today` the formatted date, `currentSections` the ordered
(name, SectionData) pairs produced by the git-history traversal,
`tags` the repository tag list (for `DetectInitialVersion`),
`existingFile` the content of the output file (`none`: unreadable),
`outWritable` whether the output file opens for writing, and `outputPath`
the configured output path (used in the fatal error message).  The thrown
exceptions of the C++ code are the `Except.error` results. -/
def generate (today : Str) (currentSections : List (Str × SectionData))
    (tags : List Str) (existingFile : Option Str) (outWritable : Bool)
    (outputPath : Str) : Except Str Str :=
  let existingRaw := readChangelogFile existingFile
  match parseChangelogStructured existingRaw with
  | .error e => .error e
  | .ok existingSections =>
    let existingFlat := flattenEntries existingSections
    let newSections := currentSections.foldr
      (fun nd acc =>
        let filtered := filterNewEntries nd.2 existingFlat
        if allCommitTypes.all (fun t => (filtered.entries t).isEmpty) then acc
        else (nd.1, filtered) :: acc) []
    let seed := detectInitialVersion tags
    let lastVersion :=
      match existingSections with
      | sec :: _ => match sec.version with | some v => v | none => seed
      | [] => seed
    let needsBackfill :=
      match existingSections with
      | sec :: _ => sec.version.isNone
      | [] => false
    let existingContent :=
      if needsBackfill then backfillContent seed existingSections
      else existingRaw
    let firstRelease := existingSections.isEmpty
    let newVersioned := assignVersions firstRelease seed lastVersion newSections
    let newMarkdown :=
      formatChangelog (newVersioned.map fun x => (x.1, x.2.2)) today
    if !outWritable then
      .error ("Cannot open output file: ".data ++ outputPath)
    else
      .ok (("# Changelog".data ++ '\n' :: '\n' :: []) ++
        (if newMarkdown.isEmpty then [] else newMarkdown) ++
        (if existingContent.isEmpty then [] else existingContent))

theorem semverLt_bump_major (v : SemanticVersion) :
    semverLt v ⟨v.major + 1, 0, 0⟩ = true := by
  rw [semverLt_iff]; simp

theorem semverLt_bump_minor (v : SemanticVersion) :
    semverLt v ⟨v.major, v.minor + 1, 0⟩ = true := by
  rw [semverLt_iff]; simp

theorem semverLt_bump_patch (v : SemanticVersion) :
    semverLt v ⟨v.major, v.minor, v.patch + 1⟩ = true := by
  rw [semverLt_iff]; simp

/-- Every `ComputeNextVersion` result is at least its base. -/
theorem computeNext_ge (base : SemanticVersion) (types : List CommitType)
    (b : Bool) : semverLe base (computeNextVersion base types b) = true := by
  cases b with
  | true => exact semverLt_le (semverLt_bump_major base)
  | false =>
    show semverLe base
      (if (types.any fun t => t == .kFeat || t == .kAdd) then
        ⟨base.major, base.minor + 1, 0⟩
      else if (types.any fun t => t == .kFix || t == .kPerf || t == .kRefactor)
        then ⟨base.major, base.minor, base.patch + 1⟩
      else base) = true
    split_ifs
    · exact semverLt_le (semverLt_bump_minor base)
    · exact semverLt_le (semverLt_bump_patch base)
    · exact semverLe_refl base

def docsOnlyData : SectionData :=
  ⟨fun t =>
    match t with
    | .kDocs => ["docs: x by A in [#abc](u/commit/a)".data]
    | _ => [], false⟩

/-- **C3**, counterexample.  A generated section holding only Docs entries
is assigned exactly the previous version `1.2.3` again — the assigned
version does not strictly increase and repeats the prior value. -/
theorem c3_counterexample :
    ((assignVersions false ⟨0, 1, 0⟩ ⟨1, 2, 3⟩
        [("app".data, docsOnlyData)]).map fun x => x.2.1) = [⟨1, 2, 3⟩] ∧
    semverLt ⟨1, 2, 3⟩ ⟨1, 2, 3⟩ = false := by
  constructor
  · decide
  · decide

/-- **C3**, amended.  Across successive generated sections the assigned
version never decreases: every `ComputeNextVersion` result is at least its
base, the chain of versions assigned by the orchestrator loop is
monotonically non-decreasing from the running last version, and the
increase is strict whenever the section is breaking or contains a
Feat/Add/Fix/Perf/Refactor category (a section with only
Docs/Test/Deprecated entries keeps the previous version). -/
theorem c3_amended_versions_non_decreasing :
    (∀ (base : SemanticVersion) (types : List CommitType) (b : Bool),
      semverLe base (computeNextVersion base types b) = true) ∧
    (∀ (base : SemanticVersion) (types : List CommitType) (b : Bool),
      (b = true ∨ ∃ t ∈ types, t = CommitType.kFeat ∨ t = CommitType.kAdd ∨
        t = CommitType.kFix ∨ t = CommitType.kPerf ∨
        t = CommitType.kRefactor) →
      semverLt base (computeNextVersion base types b) = true) ∧
    (∀ (seed lastV : SemanticVersion) (fr : Bool)
        (secs : List (Str × SectionData)), (fr = true → lastV = seed) →
      List.Chain' (fun a b => semverLe a b = true)
        (lastV :: (assignVersions fr seed lastV secs).map fun x => x.2.1)) := by
  refine ⟨computeNext_ge, ?_, ?_⟩
  · intro base types b h
    cases b with
    | true => exact semverLt_bump_major base
    | false =>
      rcases h with h | ⟨t, ht, hcase⟩
      · exact absurd h (by simp)
      · show semverLt base
          (if (types.any fun t => t == .kFeat || t == .kAdd) then
            ⟨base.major, base.minor + 1, 0⟩
          else if (types.any fun t =>
              t == .kFix || t == .kPerf || t == .kRefactor) then
            ⟨base.major, base.minor, base.patch + 1⟩
          else base) = true
        by_cases hm : (types.any fun t => t == .kFeat || t == .kAdd) = true
        · rw [if_pos hm]
          exact semverLt_bump_minor base
        · rw [if_neg hm]
          by_cases hp : (types.any fun t =>
              t == .kFix || t == .kPerf || t == .kRefactor) = true
          · rw [if_pos hp]
            exact semverLt_bump_patch base
          · exfalso
            rcases hcase with rfl | rfl | rfl | rfl | rfl
            · exact hm (List.any_eq_true.mpr ⟨_, ht, by decide⟩)
            · exact hm (List.any_eq_true.mpr ⟨_, ht, by decide⟩)
            · exact hp (List.any_eq_true.mpr ⟨_, ht, by decide⟩)
            · exact hp (List.any_eq_true.mpr ⟨_, ht, by decide⟩)
            · exact hp (List.any_eq_true.mpr ⟨_, ht, by decide⟩)
  · intro seed lastV fr secs
    induction secs generalizing fr lastV with
    | nil => intro _; exact List.chain'_singleton _
    | cons nd rest ih =>
      intro hfr
      obtain ⟨name, data⟩ := nd
      show List.Chain' (fun a b => semverLe a b = true)
        (lastV ::
          ((if fr then seed
            else computeNextVersion lastV (typesPresent data)
              data.has_breaking_change) ::
            (assignVersions false seed
              (if fr then seed
               else computeNextVersion lastV (typesPresent data)
                 data.has_breaking_change) rest).map fun x => x.2.1))
      rw [List.chain'_cons]
      constructor
      · cases fr with
        | true => rw [if_pos rfl, hfr rfl]; exact semverLe_refl seed
        | false =>
          rw [if_neg (by simp)]
          exact computeNext_ge lastV (typesPresent data)
            data.has_breaking_change
      · exact ih _ false (by simp)

/-- Closed instance of `c3_amended_versions_non_decreasing`: the strict
clause at a Feat section and the chain clause at the docs-only section that
repeats its base. -/
theorem c3_amended_witness :
    ((true : Bool) = true ∨ ∃ t ∈ [CommitType.kFeat],
      t = CommitType.kFeat ∨ t = CommitType.kAdd ∨ t = CommitType.kFix ∨
      t = CommitType.kPerf ∨ t = CommitType.kRefactor) ∧
    semverLt ⟨1, 2, 3⟩ (computeNextVersion ⟨1, 2, 3⟩ [CommitType.kFeat] true) =
      true ∧
    List.Chain' (fun a b => semverLe a b = true)
      (⟨1, 2, 3⟩ :: (assignVersions false ⟨0, 1, 0⟩ ⟨1, 2, 3⟩
        [("app".data, docsOnlyData)]).map fun x => x.2.1) :=
  ⟨Or.inl rfl,
   c3_amended_versions_non_decreasing.2.1 ⟨1, 2, 3⟩ [CommitType.kFeat] true
     (Or.inl rfl),
   c3_amended_versions_non_decreasing.2.2 ⟨0, 1, 0⟩ ⟨1, 2, 3⟩ false
     [("app".data, docsOnlyData)] (by simp)⟩

/-- **C9**.  First-release rule: when no historical section exists, the
orchestrator assigns the seed version to the very first generated section
directly — independently of the section's data and of the running last
version, so `ComputeNext` plays no role — and an unreadable (or empty)
output file parses to no sections; end to end, with an empty output file
and an untagged repository the rendered output carries the header
`## app@v0.1.0 — <today>` with its Feat and Fix groups. -/
theorem c9_first_release_uses_seed_directly :
    (∀ (seed lastV : SemanticVersion) (name : Str) (data : SectionData)
        (rest : List (Str × SectionData)),
      assignVersions true seed lastV ((name, data) :: rest) =
        (name ++ '@' :: semverToString seed, seed, data) ::
          assignVersions false seed seed rest) ∧
    readChangelogFile none = [] ∧
    parseChangelogStructured (readChangelogFile none) = .ok [] ∧
    (∃ out,
      generate "2026-10-12".data sampleSections [] none true
          "CHANGELOG.md".data = .ok out ∧
      containsSub out
        (sectionHeaderLine "app@v0.1.0".data "2026-10-12".data) = true ∧
      containsSub out ('#' :: '#' :: '#' :: ' ' :: commitTypeName .kFeat) =
        true ∧
      containsSub out ('#' :: '#' :: '#' :: ' ' :: commitTypeName .kFix) =
        true) := by
  refine ⟨fun seed lastV name data rest => rfl, rfl, rfl, ?_⟩
  refine ⟨_, rfl, ?_, ?_, ?_⟩ <;> decide

/-- **C10**, counterexample.  With a perfectly writable output file, an
existing changelog whose newest header carries the version
`v9999999999.0.0` (a component beyond `INT_MAX`) makes `Generate` throw
out of `SemanticVersion::Parse` — a fatal error that is not a
write-open failure, contradicting the claim's "only". -/
theorem c10_counterexample :
    generate "2026-10-12".data [] []
        (some "## app@v9999999999.0.0 — 2020-01-01\n".data) true
        "CHANGELOG.md".data =
      .error ("Invalid version string: v9999999999.0.0".data) := by
  rfl

/-- **C10**, amended.  An unreadable changelog file reads back as the empty
string and parses to no sections, and a run over a missing file with a
writable output succeeds (the first-release path) — read failure is never
fatal.  Whenever the existing content parses, the only fatal error left is
the inability to open the output file for writing: with `outWritable =
false` the run fails with exactly that error, and with `outWritable = true`
it succeeds.  (The one further fatal error, excluded here by the
parse-success hypothesis, is an out-of-`int`-range version suffix in a
historical header, as `c10_counterexample` shows.) -/
theorem c10_read_failure_recovered_write_failure_fatal :
    (readChangelogFile none = [] ∧
      parseChangelogStructured (readChangelogFile none) = .ok []) ∧
    (∀ (today : Str) (cur : List (Str × SectionData)) (tags : List Str)
        (path : Str),
      ∃ out, generate today cur tags none true path = .ok out) ∧
    (∀ (today : Str) (cur : List (Str × SectionData)) (tags : List Str)
        (path : Str) (file : Option Str) (secs : List ParsedSection),
      parseChangelogStructured (readChangelogFile file) = .ok secs →
      generate today cur tags file false path =
        .error ("Cannot open output file: ".data ++ path)) ∧
    (∀ (today : Str) (cur : List (Str × SectionData)) (tags : List Str)
        (path : Str) (file : Option Str) (secs : List ParsedSection),
      parseChangelogStructured (readChangelogFile file) = .ok secs →
      ∃ out, generate today cur tags file true path = .ok out) := by
  have hwrite : ∀ (today : Str) (cur : List (Str × SectionData))
      (tags : List Str) (path : Str) (file : Option Str)
      (secs : List ParsedSection),
      parseChangelogStructured (readChangelogFile file) = .ok secs →
      generate today cur tags file false path =
        .error ("Cannot open output file: ".data ++ path) := by
    intro today cur tags path file secs hparse
    simp only [generate, hparse]
    rfl
  have hok : ∀ (today : Str) (cur : List (Str × SectionData))
      (tags : List Str) (path : Str) (file : Option Str)
      (secs : List ParsedSection),
      parseChangelogStructured (readChangelogFile file) = .ok secs →
      ∃ out, generate today cur tags file true path = .ok out := by
    intro today cur tags path file secs hparse
    cases hg : generate today cur tags file true path with
    | ok out => exact ⟨out, rfl⟩
    | error e =>
      exfalso
      simp only [generate, hparse, Bool.not_true] at hg
      rw [if_neg Bool.false_ne_true] at hg
      exact Except.noConfusion hg
  exact ⟨⟨rfl, rfl⟩,
    fun today cur tags path => hok today cur tags path none [] rfl,
    hwrite, hok⟩

/-- Closed instance of `c10_read_failure_recovered_write_failure_fatal`:
a non-matching existing file parses to no sections, and an unwritable
output is exactly the fatal error. -/
theorem c10_witness :
    parseChangelogStructured (readChangelogFile (some "hello\n".data)) =
      .ok [] ∧
    generate "2026-10-12".data sampleSections [] (some "hello\n".data) false
        "out.md".data =
      .error ("Cannot open output file: out.md".data) :=
  ⟨rfl,
   c10_read_failure_recovered_write_failure_fatal.2.2.1 "2026-10-12".data
     sampleSections [] "out.md".data (some "hello\n".data) [] rfl⟩
